import Mathlib

/-!
Verification of the rope text-tree engine (`str_utils.rs`, `tree/node.rs`,
`tree/mod.rs`, `shared_impl.rs`) against its natural-language specification.

Strings are shallowly embedded as `List Nat` of UTF-8 byte values, machine
words as `Nat` with explicit truncation where overflow matters, and the tree
as a mutual inductive mirroring `Node` / its child array.  Rust `&mut self`
methods become functions returning the post-state; fallible operations
additionally return an `Option` payload (`none` = the `Err(())` early-return,
in which case the returned post-state captures any mutation that had already
happened before the error, exactly as the Rust leaves `self`).
-/

namespace Rope

/-! ## Byte-level scanner primitives (src/str_utils.rs) -/

/-- Test for a UTF-8 continuation byte: the top two bits are `10`.
Mirrors the `(byte & 0xC0) == 0x80` tests in `str_utils.rs`. -/
def isContByte (b : Nat) : Bool := b &&& 0xC0 == 0x80

/-- Embedding of `count_chars` (`str_utils.rs:239`): the byte length minus
the number of continuation bytes.  The SIMD/SWAR chunked mid-loop of
`count_chars_internal` computes exactly this byte-at-a-time count, so the
scalar scan is its extensional embedding. -/
def countChars (text : List Nat) : Nat :=
  text.length - text.countP (fun b => isContByte b)

/-- Embedding of Rust `str::is_char_boundary`: true at 0 and at the length,
false past the end, otherwise a non-continuation-byte test. -/
def isCharBoundary (text : List Nat) (i : Nat) : Bool :=
  if i = 0 then true
  else if i = text.length then true
  else if h : i < text.length then !isContByte (text.get ⟨i, h⟩)
  else false

/-- Embedding of `byte_to_char_idx` (`str_utils.rs:17-27`). -/
def byteToCharIdx (text : List Nat) (byteIdx : Nat) : Nat :=
  if byteIdx = 0 then 0
  else if byteIdx ≥ text.length then countChars text
  else countChars (text.take (byteIdx + 1)) - 1

/-- Loop of `char_to_byte_idx_inner` (`str_utils.rs:64-116`): walk the bytes
while `char_count <= char_idx`, counting non-continuation bytes; on exit
return the position, minus one when the loop stopped because the count
exceeded `char_idx`.  The aligned-chunk SWAR mid-loop only consumes chunks
whose worst-case char count keeps `char_count <= char_idx`, so the scalar
walk is the function's extensional behaviour. -/
def charToByteAux (charIdx : Nat) : List Nat → Nat → Nat → Nat
  | [], pos, cnt => if cnt ≤ charIdx then pos else pos - 1
  | b :: rest, pos, cnt =>
    if cnt ≤ charIdx then
      charToByteAux charIdx rest (pos + 1) (cnt + (if isContByte b then 0 else 1))
    else pos - 1

/-- Embedding of `char_to_byte_idx` (`str_utils.rs:53-61`). -/
def charToByteIdx (text : List Nat) (charIdx : Nat) : Nat :=
  charToByteAux charIdx text 0 0

/-- Per-byte line-break contribution of the scalar loop shared by
`count_line_breaks_internal` (`str_utils.rs:344-382`) and
`line_to_byte_idx_inner` (`str_utils.rs:169-207`): `b` is the current byte
and `rest` the bytes after it (the loop peeks up to two bytes ahead). -/
def lbContrib (b : Nat) (rest : List Nat) : Nat :=
  if 0x0A ≤ b ∧ b ≤ 0x0D then
    if b = 0x0D ∧ rest.head? = some 0x0A then 0 else 1
  else if b = 0xC2 then
    if rest.head? = some 0x85 then 1 else 0
  else if b = 0xE2 then
    match rest with
    | b1 :: b2 :: _ => if b1 = 0x80 ∧ b2 >>> 1 = 0x54 then 1 else 0
    | _ => 0
  else 0

/-- Embedding of `count_line_breaks` / `count_line_breaks_internal`
(`str_utils.rs:307-386`): LF, VT, FF, CR, NEL, LS, PS, with a CR directly
followed by LF contributing nothing (the LF is counted instead).  The
aligned-chunk SWAR path with its `inc_nth_from_end_lex_byte` /
`dec_last_lex_byte` boundary corrections computes the same per-byte count,
so the scalar loop is the extensional embedding. -/
def countLineBreaks : List Nat → Nat
  | [] => 0
  | b :: rest => lbContrib b rest + countLineBreaks rest

/-- Embedding of the reference iterator `LineBreakIter::next`
(`str_utils.rs:902-935`) as a total break count.  `none` models the
`unwrap()` panic when the string ends less than two bytes after an `0xE2`
byte (unreachable on valid UTF-8). -/
def lineBreakIterCount : List Nat → Option Nat
  | [] => some 0
  | [b] =>
    if 0x0A ≤ b ∧ b ≤ 0x0D then some 1
    else if b = 0xC2 then some 0
    else if b = 0xE2 then none
    else some 0
  | b :: c :: rest =>
    if 0x0A ≤ b ∧ b ≤ 0x0D then
      if b = 0x0D ∧ c = 0x0A then (lineBreakIterCount rest).map (· + 1)
      else (lineBreakIterCount (c :: rest)).map (· + 1)
    else if b = 0xC2 then
      if c = 0x85 then (lineBreakIterCount rest).map (· + 1)
      else lineBreakIterCount rest
    else if b = 0xE2 then
      match rest with
      | d :: rest2 =>
        if c = 0x80 ∧ d >>> 1 = 0x54 then (lineBreakIterCount rest2).map (· + 1)
        else lineBreakIterCount rest2
      | [] => none
    else lineBreakIterCount (c :: rest)

/-- Loop of `line_to_byte_idx_inner` (`str_utils.rs:146-216`): walk bytes
while `line_break_count < line_idx`, adding the same per-byte contributions
as `count_line_breaks`; returns the stopping position. -/
def lineToByteAux (lineIdx : Nat) : List Nat → Nat → Nat → Nat
  | [], pos, _ => pos
  | b :: rest, pos, cnt =>
    if cnt < lineIdx then lineToByteAux lineIdx rest (pos + 1) (cnt + lbContrib b rest)
    else pos

/-- Trailing fix-up of `line_to_byte_idx_inner` (`str_utils.rs:212-214`):
advance to the next char boundary.  The Rust loop is only ever entered with
a position at most the length, where it needs at most `length` steps; the
fuel makes that bound explicit. -/
def boundaryFixupGo (text : List Nat) : Nat → Nat → Nat
  | 0, q => q
  | fuel + 1, q => if isCharBoundary text q then q else boundaryFixupGo text fuel (q + 1)

/-- Fix-up loop entry point with enough fuel for any in-bounds position. -/
def boundaryFixup (text : List Nat) (p : Nat) : Nat :=
  boundaryFixupGo text (text.length + 1) p

/-- Embedding of `line_to_byte_idx` (`str_utils.rs:135-216`). -/
def lineToByteIdx (text : List Nat) (lineIdx : Nat) : Nat :=
  boundaryFixup text (lineToByteAux lineIdx text 0 0)

/-! ## UTF-8 encoding (to express validity hypotheses) -/

/-- UTF-8 encoding of a single Unicode scalar value, as byte values. -/
def encodeChar (c : Nat) : List Nat :=
  if c < 0x80 then [c]
  else if c < 0x800 then [0xC0 + c / 64, 0x80 + c % 64]
  else if c < 0x10000 then
    [0xE0 + c / 4096, 0x80 + c / 64 % 64, 0x80 + c % 64]
  else
    [0xF0 + c / 0x40000, 0x80 + c / 4096 % 64, 0x80 + c / 64 % 64, 0x80 + c % 64]

/-- UTF-8 encoding of a sequence of scalar values. -/
def utf8Encode (cs : List Nat) : List Nat := cs.flatMap encodeChar

/-- All code points are genuine Unicode scalar values (below 0x110000). -/
def ValidScalars (cs : List Nat) : Prop := ∀ c ∈ cs, c < 0x110000

/-- Largest char boundary at or before a position (the scalar the byte
belongs to starts there). -/
def prevCharBoundary (text : List Nat) : Nat → Nat
  | 0 => 0
  | i + 1 => if isCharBoundary text (i + 1) then i + 1 else prevCharBoundary text i

/-- Character-level reference count of line breaks: LF, VT, FF, CR, NEL, LS
and PS each end a line, and a CR immediately followed by LF counts once
(attributed to the LF). -/
def charLbContrib (c : Nat) (next : Option Nat) : Nat :=
  if c = 0x0D then (if next = some 0x0A then 0 else 1)
  else if c = 0x0A ∨ c = 0x0B ∨ c = 0x0C ∨ c = 0x85 ∨ c = 0x2028 ∨ c = 0x2029 then 1
  else 0

/-- Reference line-break count over a scalar-value sequence. -/
def countRefBreaks : List Nat → Nat
  | [] => 0
  | c :: rest => charLbContrib c rest.head? + countRefBreaks rest

/-- Byte sequence of a Lean string literal under the UTF-8 encoding above. -/
def strBytes (s : String) : List Nat := (s.data.map Char.toNat).flatMap encodeChar

/-- The 124-byte scenario-S1 text of the spec (test constant `TEXT_LINES`). -/
def textS1 : List Nat :=
  strBytes "Hello there!  How're you doing?\nIt's a fine day, isn't it?\nAren't you glad we're alive?\nこんにちは、みんなさん！"

/-- The 48-byte scenario-S3 text of the spec (test `count_line_breaks_01`). -/
def textS3 : List Nat :=
  strBytes "\u000AHello\u000D\u000A\u000Dせ\u000Bか\u000Cい\u0085. There\u2028is something.\u2029"

/-! ## SWAR byte comparison (`<usize as ByteChunk>::cmp_eq_byte`, str_utils.rs:574-580)

The x86-64 `usize` is 8 bytes; machine words are `Nat` values below `2 ^ 64`
and `!x` is XOR with the all-ones word. -/

/-- Word with every byte 1, at width `n` lanes (`ONES = usize::MAX / 0xFF`
for `n = 8`). -/
def onesW : Nat → Nat
  | 0 => 0
  | n + 1 => 1 + 256 * onesW n

/-- Embedding of `<usize as ByteChunk>::cmp_eq_byte` (`str_utils.rs:574-580`)
for a 64-bit word.  `ONES_HIGH = ONES << 7` and `!x` is `x ^^^ usize::MAX`;
the single `+` cannot overflow 64 bits because both operands have all high
bits clear. -/
def cmpEqByte (w b : Nat) : Nat :=
  let ones := onesW 8
  let onesHigh := ones <<< 7
  let notOnesHigh := onesHigh ^^^ (2 ^ 64 - 1)
  let word := w ^^^ (b * ones)
  (((((word &&& notOnesHigh) + notOnesHigh) ||| word) ^^^ (2 ^ 64 - 1)) &&& onesHigh) >>> 7

/-- Lane `i` of a word, as the Rust test `flag_bytes_01` reads it. -/
def getByteLane (w i : Nat) : Nat := w >>> (8 * i) &&& 0xFF

/-- Lane-wise specification of byte equality: lane `i` holds 1 exactly when
lane `i` of `w` equals `b`. -/
def laneEqSpec (b : Nat) : Nat → Nat → Nat
  | 0, _ => 0
  | n + 1, w => (if w % 256 = b then 1 else 0) + 256 * laneEqSpec b n (w / 256)

/-! ## Chunk-stream comparison and hashing (src/shared_impl.rs)

A rope value enters these algorithms only through `len_bytes()` and its
`chunks()` iterator, so a rope is embedded as the list of its chunks, each a
byte list; the content is the flattening. -/

/-- Lexicographic comparison of byte slices, as Rust `<[u8]>::cmp`:
elementwise with ties broken by length. -/
def byteListCmp : List Nat → List Nat → Ordering
  | [], [] => .eq
  | [], _ :: _ => .lt
  | _ :: _, [] => .gt
  | x :: xs, y :: ys => if x < y then .lt else if y < x then .gt else byteListCmp xs ys

/-- Loop of `PartialEq::eq` for two ropes (`shared_impl.rs:295-325`):
`c1`/`c2` are the current chunk remainders, `r1`/`r2` the chunks not yet
pulled from the iterators. -/
def ropeEqLoop : List Nat → List (List Nat) → List Nat → List (List Nat) → Bool
  | c1, r1, c2, r2 =>
    if c2.length < c1.length then
      -- `chunk1.len() > chunk2.len()` branch: chunk2 is consumed entirely.
      if c1.take c2.length ≠ c2 then false
      else
        let c1a := c1.drop c2.length
        if c1a = [] then
          match r1 with
          | [] => true
          | d1 :: r1a =>
            match r2 with
            | [] => true
            | d2 :: r2a => ropeEqLoop d1 r1a d2 r2a
        else
          match r2 with
          | [] => true
          | d2 :: r2a => ropeEqLoop c1a r1 d2 r2a
    else
      -- chunk1 is consumed entirely.
      if c2.take c1.length ≠ c1 then false
      else
        let c2a := c2.drop c1.length
        match r1 with
        | [] => true
        | d1 :: r1a =>
          if c2a = [] then
            match r2 with
            | [] => true
            | d2 :: r2a => ropeEqLoop d1 r1a d2 r2a
          else ropeEqLoop d1 r1a c2a r2
  termination_by c1 r1 c2 r2 => r1.length + r2.length

/-- Embedding of `PartialEq::eq` for two ropes (`shared_impl.rs:285-328`),
including the `len_bytes` pre-check.  A rope is given as its chunk list. -/
def ropeEq (a b : List (List Nat)) : Bool :=
  if a.flatten.length ≠ b.flatten.length then false
  else ropeEqLoop (a.headD []) a.tail (b.headD []) b.tail

/-- Loop of `Ord::cmp` for two ropes (`shared_impl.rs:409-443`).  The
`chunk1.len() < chunk2.len()` branch reproduces the source exactly: it
reassigns `chunk1 = &[]` *before* slicing `chunk2 = &chunk2[chunk1.len()..]`,
so there `chunk2` keeps its compared prefix. -/
def ropeCmpLoop : List Nat → List (List Nat) → List Nat → List (List Nat) →
    Nat → Nat → Ordering
  | c1, r1, c2, r2, len1, len2 =>
    if c2.length ≤ c1.length then
      -- `chunk1.len() >= chunk2.len()` branch: chunk2 is consumed entirely.
      let compared := byteListCmp (c1.take c2.length) c2
      if compared ≠ .eq then compared
      else
        let c1a := c1.drop c2.length
        if c1a = [] then
          match r1 with
          | [] => compare len1 len2
          | d1 :: r1a =>
            match r2 with
            | [] => compare len1 len2
            | d2 :: r2a => ropeCmpLoop d1 r1a d2 r2a len1 len2
        else
          match r2 with
          | [] => compare len1 len2
          | d2 :: r2a => ropeCmpLoop c1a r1 d2 r2a len1 len2
    else
      -- Source order kept: `chunk1 = &[]` happens *before*
      -- `chunk2 = &chunk2[chunk1.len()..]`, so chunk2 is left whole here.
      let compared := byteListCmp c1 (c2.take c1.length)
      if compared ≠ .eq then compared
      else
        let c1a : List Nat := []
        let c2a := c2.drop c1a.length
        match r1 with
        | [] => compare len1 len2
        | d1 :: r1a =>
          if c2a = [] then
            match r2 with
            | [] => compare len1 len2
            | d2 :: r2a => ropeCmpLoop d1 r1a d2 r2a len1 len2
          else ropeCmpLoop d1 r1a c2a r2 len1 len2
  termination_by c1 r1 c2 r2 => r1.length + r2.length

/-- Embedding of `Ord::cmp` for two ropes (`shared_impl.rs:401-447`). -/
def ropeCmp (a b : List (List Nat)) : Ordering :=
  ropeCmpLoop (a.headD []) a.tail (b.headD []) b.tail
    a.flatten.length b.flatten.length

/-- Lexicographic byte comparison of the full string forms: the ordering the
spec promises for `Ord::cmp` ("equality and ordering of their string
forms"). -/
def stringFormCmp (a b : List (List Nat)) : Ordering :=
  byteListCmp a.flatten b.flatten

/-- Hasher events: a `Hasher::write` call or the final `write_u8`. -/
inductive HashEvent where
  | write : List Nat → HashEvent
  | writeU8 : Nat → HashEvent
  deriving DecidableEq, Repr

/-- Inner `while !data.is_empty()` loop of `Hash::hash`
(`shared_impl.rs:552-570`) for one chunk: returns the `write` calls it makes
and the new buffer contents. -/
def hashFeed : List Nat → List Nat → List (List Nat) × List Nat
  | buffer, data =>
    if hd : data = [] then ([], buffer)
    else if buffer = [] ∧ 256 ≤ data.length then
      let out := hashFeed [] (data.drop 256)
      (data.take 256 :: out.1, out.2)
    else if hb : 256 ≤ buffer.length then
      -- In Rust `buffer_len == BLOCK_SIZE`; the buffer never exceeds 256,
      -- and stating the test as `≤` keeps the function total on all inputs.
      let out := hashFeed [] data
      (buffer :: out.1, out.2)
    else
      let n := min (256 - buffer.length) data.length
      hashFeed (buffer ++ data.take n) (data.drop n)
  termination_by buffer data => 2 * data.length + buffer.length
  decreasing_by
    · have hk : data.length ≠ 0 := fun h => hd (List.eq_nil_of_length_eq_zero h)
      simp only [List.length_drop, List.length_nil]
      omega
    · simp only [List.length_nil]
      omega
    · have hk : data.length ≠ 0 := fun h => hd (List.eq_nil_of_length_eq_zero h)
      simp only [List.length_drop, List.length_append, List.length_take]
      omega

/-- Embedding of `Hash::hash` (`shared_impl.rs:529-583`): fold the chunk
iterator through the block buffer, flush the remainder, then `write_u8 0xff`. -/
def hashTrace (chunks : List (List Nat)) : List HashEvent :=
  let fed := chunks.foldl
    (fun acc chunk =>
      let out := hashFeed acc.2 chunk
      (acc.1 ++ out.1, out.2))
    (([] : List (List Nat)), ([] : List Nat))
  (fed.1 ++ if fed.2 = [] then [] else [fed.2]).map HashEvent.write
    ++ [HashEvent.writeU8 0xFF]

/-- Specification-side decomposition of a byte string into 256-byte blocks,
the last block holding the (nonempty) remainder. -/
def blocks256 (l : List Nat) : List (List Nat) :=
  if l = [] then []
  else if l.length ≤ 256 then [l]
  else l.take 256 :: blocks256 (l.drop 256)
  termination_by l.length
  decreasing_by
    simp [List.length_drop]
    omega

/-! ## TextInfo (tree/text_info.rs is not under src/; modelled from the spec) -/

/-- Count of line breaks under the CRLF regime: LF and CR, with a CR+LF
pair counted once (attributed to the LF). -/
def countCrlfBreaks : List Nat → Nat
  | [] => 0
  | b :: rest =>
    (if b = 0x0A then 1
     else if b = 0x0D ∧ rest.head? ≠ some 0x0A then 1
     else 0) + countCrlfBreaks rest

/-- Count of UTF-16 code units: one per scalar plus one more per 4-byte
scalar (surrogate pair), read off the byte sequence. -/
def countUtf16 (text : List Nat) : Nat :=
  countChars text + text.countP (fun b => 0xF0 ≤ b)

/-- Modelled from the spec: `TextInfo` (§3, §4.1; `tree/text_info.rs` is not
under src/) — the additive per-chunk metric summary with the CR/LF edge
flags. -/
structure TextInfo where
  bytes : Nat
  chars : Nat
  utf16 : Nat
  lineBreaksLf : Nat
  lineBreaksCrlf : Nat
  lineBreaksUnicode : Nat
  startsWithLf : Bool
  endsWithCr : Bool
  deriving DecidableEq, Repr

/-- Modelled from the spec: `TextInfo::new` — the all-zero identity with
both flags false. -/
def TextInfo.new : TextInfo := ⟨0, 0, 0, 0, 0, 0, false, false⟩

/-- Modelled from the spec: `TextInfo::from_str` (§4.1) — all counts in one
scan; `starts_with_lf` iff the first byte is LF, `ends_with_cr` iff the
last byte is CR. -/
def TextInfo.fromStr (text : List Nat) : TextInfo where
  bytes := text.length
  chars := countChars text
  utf16 := countUtf16 text
  lineBreaksLf := text.countP (fun b => b == 0x0A)
  lineBreaksCrlf := countCrlfBreaks text
  lineBreaksUnicode := countLineBreaks text
  startsWithLf := text.head? == some 0x0A
  endsWithCr := text.getLast? == some 0x0D

/-- Modelled from the spec: `TextInfo::append` (§3, §4.1) — sum the counts
and, when the left part ends with CR and the right starts with LF, count
the pair once by decrementing each CRLF-aware line-break count.  The flags
of an empty side defer to the other side so that `new` is the identity. -/
def TextInfo.append (a b : TextInfo) : TextInfo where
  bytes := a.bytes + b.bytes
  chars := a.chars + b.chars
  utf16 := a.utf16 + b.utf16
  lineBreaksLf := a.lineBreaksLf + b.lineBreaksLf
  lineBreaksCrlf :=
    a.lineBreaksCrlf + b.lineBreaksCrlf -
      (if a.endsWithCr ∧ b.startsWithLf then 1 else 0)
  lineBreaksUnicode :=
    a.lineBreaksUnicode + b.lineBreaksUnicode -
      (if a.endsWithCr ∧ b.startsWithLf then 1 else 0)
  startsWithLf := if a.bytes = 0 then b.startsWithLf else a.startsWithLf
  endsWithCr := if b.bytes = 0 then a.endsWithCr else b.endsWithCr

/-! ## Leaf text (tree/node_text.rs is not under src/; modelled from the spec) -/

/-- Modelled from the spec: `LeafText` (§3, §4.2; `tree/node_text.rs` is not
under src/) — a UTF-8 byte buffer with a logical split point `mid` dividing
it into two half-chunks.  The cached left-half summary and the cached full
summary are derived functions here (`leftInfo`, `textInfo`), which models a
cache that is always accurate. -/
structure Text where
  bytes : List Nat
  mid : Nat
  deriving DecidableEq, Repr

/-- Byte length of the leaf buffer. -/
def Text.len (t : Text) : Nat := t.bytes.length

/-- The two logical half-chunks (`LeafText::chunks`). -/
def Text.chunks (t : Text) : List Nat × List Nat :=
  (t.bytes.take t.mid, t.bytes.drop t.mid)

/-- Cached left-half summary (`LeafText::left_info`), derived. -/
def Text.leftInfo (t : Text) : TextInfo := TextInfo.fromStr (t.bytes.take t.mid)

/-- Cached full summary (`LeafText::text_info`), derived: the left half
appended with the right half. -/
def Text.textInfo (t : Text) : TextInfo :=
  (TextInfo.fromStr (t.bytes.take t.mid)).append
    (TextInfo.fromStr (t.bytes.drop t.mid))

/-- Char-boundary test on the leaf's buffer. -/
def Text.isCharBoundary (t : Text) (i : Nat) : Bool :=
  Rope.isCharBoundary t.bytes i

/-- Modelled from the spec: free capacity of a leaf under the byte cap
`mb` (`MAX_BYTES`). -/
def Text.freeCapacity (mb : Nat) (t : Text) : Nat := mb - t.bytes.length

/-- Modelled from the spec: `LeafText::insert_str` — splice bytes in at a
boundary (the caller `Node::insert_at_byte_idx` has already verified the
boundary, so the splice itself is total). -/
def Text.insertStr (t : Text) (i : Nat) (s : List Nat) : Text where
  bytes := t.bytes.take i ++ s ++ t.bytes.drop i
  mid := if i ≤ t.mid then t.mid + s.length else t.mid

/-- Modelled from the spec: `LeafText::append_str`. -/
def Text.appendStr (t : Text) (s : List Nat) : Text where
  bytes := t.bytes ++ s
  mid := t.mid

/-- Modelled from the spec: `LeafText::remove` — remove the byte range
`[lo, hi)` (boundaries already verified by the caller). -/
def Text.removeRange (t : Text) (lo hi : Nat) : Text where
  bytes := t.bytes.take lo ++ t.bytes.drop hi
  mid :=
    if t.mid ≤ lo then t.mid
    else if hi ≤ t.mid then t.mid - (hi - lo)
    else lo

/-- Modelled from the spec: `LeafText::split` (§4.2) — split the buffer at
`i` into left and right leaves; if `i` falls between the CR and LF of a
CRLF pair the boundary moves backward by one so the pair is not split
across leaves. -/
def Text.splitAt (t : Text) (i : Nat) : Text × Text :=
  let j :=
    if 1 ≤ i ∧ i < t.bytes.length ∧ t.bytes.getD (i - 1) 0 = 0x0D ∧
        t.bytes.getD i 0 = 0x0A
    then i - 1 else i
  (⟨t.bytes.take j, min t.mid j⟩, ⟨t.bytes.drop j, t.mid - j⟩)

/-- Downward search for a split point of `s` at or below `k` that is a char
boundary and does not separate a CR from a following LF. -/
def distSplitGo (s : List Nat) : Nat → Nat
  | 0 => 0
  | k + 1 =>
    if isCharBoundary s (k + 1) ∧
        ¬(s.getD k 0 = 0x0D ∧ s.getD (k + 1) 0 = 0x0A)
    then k + 1 else distSplitGo s k

/-- Modelled from the spec: `LeafText::distribute` (§4.2) — rebalance the
two buffers around the midpoint of their combined contents, on a char
boundary that keeps any CRLF pair on one side.  The spec fixes only these
properties of the new boundary; the half-split points of the results are
unobservable and reset to 0. -/
def Text.distribute (l r : Text) : Text × Text :=
  let all := l.bytes ++ r.bytes
  let k := distSplitGo all ((all.length + 1) / 2)
  (⟨all.take k, 0⟩, ⟨all.drop k, 0⟩)

/-- Downward search for the largest char-boundary split of `s` at or below
the capacity. -/
def findSplitGo (s : List Nat) : Nat → Nat
  | 0 => 0
  | k + 1 => if isCharBoundary s (k + 1) then k + 1 else findSplitGo s k

/-- Modelled from the spec: `find_split_l` (§4.4; defined in the crate root,
not under src/) — the largest prefix of `s` that fits in `cap` bytes on a
char boundary. -/
def findSplitL (cap : Nat) (s : List Nat) : Nat :=
  findSplitGo s (min cap s.length)

/-! ## Node and its child array (src/tree/node.rs; the child-array container
`tree/node_children.rs` is not under src/ and is modelled from the spec §4.3
as parallel info/node sequences). -/

mutual
inductive Node where
  | leaf : Text → Node
  | internal : Children → Node
inductive Children where
  | nil : Children
  | cons : TextInfo → Node → Children → Children
end

/-- Emptiness test for a child array. -/
def Children.isNil : Children → Bool
  | .nil => true
  | .cons _ _ _ => false

/-- Number of children (`Children::len`). -/
def Children.length : Children → Nat
  | .nil => 0
  | .cons _ _ rest => rest.length + 1

/-- First `k` children. -/
def Children.takeN : Nat → Children → Children
  | 0, _ => .nil
  | _ + 1, .nil => .nil
  | k + 1, .cons i n rest => .cons i n (Children.takeN k rest)

/-- All but the first `k` children. -/
def Children.dropN : Nat → Children → Children
  | 0, cs => cs
  | _ + 1, .nil => .nil
  | k + 1, .cons _ _ rest => Children.dropN k rest

/-- Left fold of `TextInfo.append` over the stored child infos, from `acc`. -/
def Children.combinedGo (acc : TextInfo) : Children → TextInfo
  | .nil => acc
  | .cons i _ rest => Children.combinedGo (acc.append i) rest

/-- Modelled from the spec: `Children::combined_text_info` (§4.3) — the
`append`-fold of the stored infos (also the shape of `Node::text_info`,
node.rs:15-26). -/
def Children.combinedInfo (cs : Children) : TextInfo :=
  Children.combinedGo TextInfo.new cs

mutual
/-- Concatenation of the leaf texts below a node, in order. -/
def Node.concatBytes : Node → List Nat
  | .leaf t => t.bytes
  | .internal cs => cs.concatBytes
/-- Concatenation of the leaf texts below a child array. -/
def Children.concatBytes : Children → List Nat
  | .nil => []
  | .cons _ n rest => n.concatBytes ++ rest.concatBytes
end

mutual
/-- Text info of a node recomputed from scratch from its leaves, exactly as
`Node::assert_accurate_text_info` (node.rs:312-336) recomputes it: leaves
from `from_str` of the two half-chunks, internal nodes as the `append`-fold
of the children's recomputed infos. -/
def Node.recomputeInfo : Node → TextInfo
  | .leaf t =>
    (TextInfo.fromStr (t.bytes.take t.mid)).append
      (TextInfo.fromStr (t.bytes.drop t.mid))
  | .internal cs => Children.recomputeGo TextInfo.new cs
/-- Fold of recomputed child infos, from `acc`. -/
def Children.recomputeGo (acc : TextInfo) : Children → TextInfo
  | .nil => acc
  | .cons _ n rest => Children.recomputeGo (acc.append n.recomputeInfo) rest
end

mutual
/-- Accuracy of every cached `TextInfo` in the tree, mirroring
`Node::assert_accurate_text_info` (node.rs:312-336): each leaf's cached
infos match the freshly computed ones (definitionally true here, because
the leaf caches are modelled as derived), and each stored child info equals
the child's recomputed info, recursively. -/
def Node.infoAccurate : Node → Bool
  | .leaf t =>
    (t.textInfo ==
      (TextInfo.fromStr (t.bytes.take t.mid)).append
        (TextInfo.fromStr (t.bytes.drop t.mid))) &&
    (t.leftInfo == TextInfo.fromStr (t.bytes.take t.mid))
  | .internal cs => cs.infoAccurate
/-- Accuracy of the stored infos of a child array. -/
def Children.infoAccurate : Children → Bool
  | .nil => true
  | .cons i n rest =>
    (i == n.recomputeInfo) && n.infoAccurate && rest.infoAccurate
end

mutual
/-- Embedding of `Node::insert_at_byte_idx` (node.rs:94-163) under byte cap
`mb` (`MAX_BYTES`) and branching cap `mc` (`MAX_CHILDREN`).  Returns the
post-state of the node together with `none` for the `Err(())` early-return
(not a char boundary) or `some (new_info, residual)` on success, the
residual being the right side of a split and its info.  The unused
`node_info` argument of the source is omitted. -/
def Node.insertAtByteIdx (mb mc : Nat) :
    Node → Nat → List Nat → Node × Option (TextInfo × Option (TextInfo × Node))
  | .leaf t, byteIdx, text =>
    if ¬t.isCharBoundary byteIdx then (.leaf t, none)
    else if text.length ≤ Text.freeCapacity mb t then
      let t2 := t.insertStr byteIdx text
      (.leaf t2, some (t2.textInfo, none))
    else
      let pair := t.splitAt byteIdx
      let k := findSplitL (Text.freeCapacity mb pair.1) text
      let lt := pair.1.appendStr (text.take k)
      let rt := pair.2.insertStr 0 (text.drop k)
      let d := Text.distribute lt rt
      (.leaf d.1, some (d.1.textInfo, some (d.2.textInfo, .leaf d.2)))
  | .internal cs, byteIdx, text =>
    let walked := Children.insertWalk mb mc cs byteIdx text
    match walked.2 with
    | none => (.internal walked.1, none)
    | some grew =>
      if grew ∧ mc < walked.1.length then
        let half := (walked.1.length + 1) / 2
        let l := Children.takeN half walked.1
        let r := Children.dropN half walked.1
        (.internal l,
          some (l.combinedInfo, some (r.combinedInfo, .internal r)))
      else (.internal walked.1, some (walked.1.combinedInfo, none))
/-- Walk to the child holding `byteIdx` (the `search_byte_idx_only` prefix
scan of §4.3 fused with the child update of node.rs:130-161): skip children
while the index lies beyond them, recurse into the target child, write back
its new info, and splice any residual node in right after it.  The second
component is `none` on error, otherwise whether a residual was added. -/
def Children.insertWalk (mb mc : Nat) :
    Children → Nat → List Nat → Children × Option Bool
  | .nil, _, _ => (.nil, none)
  | .cons info n rest, byteIdx, text =>
    if byteIdx < info.bytes ∨ rest.isNil then
      match Node.insertAtByteIdx mb mc n byteIdx text with
      | (n2, none) => (.cons info n2 rest, none)
      | (n2, some (lInfo, none)) => (.cons lInfo n2 rest, some false)
      | (n2, some (lInfo, some (rInfo, rNode))) =>
        (.cons lInfo n2 (.cons rInfo rNode rest), some true)
    else
      let walked := Children.insertWalk mb mc rest (byteIdx - info.bytes) text
      (.cons info n walked.1, walked.2)
end

mutual
/-- Embedding of `Node::remove_byte_range` (node.rs:165-265) for the range
`[lo, hi)`.  Returns the post-state and `none` for the `Err(())` path; as
in the source, an error propagated out of a child keeps every mutation the
call had already applied (the start child's trim, in the multi-child case)
while skipping the pending info write-backs and child removals.  The unused
`node_info` argument of the source is omitted. -/
def Node.removeByteRange : Node → Nat → Nat → Node × Option TextInfo
  | .leaf t, lo, hi =>
    if ¬t.isCharBoundary lo ∨ ¬t.isCharBoundary hi then (.leaf t, none)
    else
      let t2 := t.removeRange lo hi
      (.leaf t2, some t2.textInfo)
  | .internal cs, lo, hi =>
    let walked := Children.removeWalk cs lo hi
    match walked.2 with
    | none => (.internal walked.1, none)
    | some _ => (.internal walked.1, some walked.1.combinedInfo)
/-- Walk to the start child of the range (both endpoint searches of
node.rs:193-208 fused with the child edits): within the start child either
handle the single-child case (node.rs:211-220) or trim the start child and
hand the tail of the range to `remTail` (node.rs:222-261). -/
def Children.removeWalk : Children → Nat → Nat → Children × Option Unit
  | .nil, _, _ => (.nil, some ())
  | .cons info n rest, lo, hi =>
    if lo < info.bytes ∨ rest.isNil then
      if hi < info.bytes ∨ rest.isNil then
        -- Start and end child coincide.
        if lo = 0 ∧ hi = info.bytes then (rest, some ())
        else
          match Node.removeByteRange n lo hi with
          | (n2, none) => (.cons info n2 rest, none)
          | (n2, some i2) => (.cons i2 n2 rest, some ())
      else if lo = 0 then
        -- Whole start child covered: it is removed only after the end
        -- trim succeeds (`remove_multiple` comes after the `?`).
        let tailed := Children.remTail rest (hi - info.bytes)
        match tailed.2 with
        | none => (.cons info n tailed.1, none)
        | some _ => (tailed.1, some ())
      else
        -- Partial start child: trim `[lo, bytes)` first (node.rs:228-234).
        match Node.removeByteRange n lo info.bytes with
        | (n2, none) => (.cons info n2 rest, none)
        | (n2, some i2) =>
          let tailed := Children.remTail rest (hi - info.bytes)
          match tailed.2 with
          | none => (.cons i2 n2 tailed.1, none)
          | some _ => (.cons i2 n2 tailed.1, some ())
    else
      let walked := Children.removeWalk rest (lo - info.bytes) (hi - info.bytes)
      (.cons info n walked.1, walked.2)
/-- Handle the part of a removal range after the start child: trim the end
child (node.rs:237-241), then drop the wholly covered children between
(node.rs:243-259) — which happens only once the end trim has succeeded. -/
def Children.remTail : Children → Nat → Children × Option Unit
  | .nil, _ => (.nil, some ())
  | .cons info n rest, hi =>
    if hi < info.bytes ∨ rest.isNil then
      if hi = info.bytes then (rest, some ())
      else
        match Node.removeByteRange n 0 hi with
        | (n2, none) => (.cons info n2 rest, none)
        | (n2, some i2) => (.cons i2 n2 rest, some ())
    else
      let tailed := Children.remTail rest (hi - info.bytes)
      match tailed.2 with
      | none => (.cons info n tailed.1, none)
      | some _ => (tailed.1, some ())
end


/-- Bytes of the residual node an insert hands back to its caller. -/
def residualBytes : Option (TextInfo × Node) → List Nat
  | none => []
  | some (_, rn) => rn.concatBytes

/-- Position `i` does not fall between the CR and the LF of a CRLF pair of
`content`. -/
def CrlfFree (content : List Nat) (i : Nat) : Prop :=
  ¬(1 ≤ i ∧ i < content.length ∧ content.getD (i - 1) 0 = 0x0D ∧
    content.getD i 0 = 0x0A)

instance (content : List Nat) (i : Nat) : Decidable (CrlfFree content i) := by
  unfold CrlfFree
  infer_instance

/-- A small two-leaf tree with accurate cached infos, used as a concrete
evaluation vector for the tree claims. -/
def exTree2 : Node :=
  .internal
    (.cons (Node.recomputeInfo (.leaf ⟨[97, 98, 99], 1⟩)) (.leaf ⟨[97, 98, 99], 1⟩)
      (.cons (Node.recomputeInfo (.leaf ⟨[100, 195, 169], 1⟩))
        (.leaf ⟨[100, 195, 169], 1⟩) .nil))

/-! ## Helper lemmas for the scanner claims -/

theorem countChars_eq_countP (text : List Nat) :
    countChars text = text.countP (fun b => !isContByte b) := by
  have h := List.length_eq_countP_add_countP (fun b => isContByte b) (l := text)
  simp only [countChars]
  have h2 : text.countP (fun b => decide ¬(isContByte b = true)) =
      text.countP (fun b => !isContByte b) := by
    apply List.countP_congr
    intro b _
    cases isContByte b <;> simp
  omega

theorem charToByteAux_consume (charIdx : Nat) (l : List Nat) :
    ∀ pos cnt, cnt + l.countP (fun b => !isContByte b) ≤ charIdx →
      charToByteAux charIdx l pos cnt = pos + l.length := by
  induction l with
  | nil =>
    intro pos cnt h
    simp only [List.countP_nil] at h
    have hle : cnt ≤ charIdx := by omega
    simp [charToByteAux, hle]
  | cons b rest ih =>
    intro pos cnt h
    rw [List.countP_cons] at h
    have hle : cnt ≤ charIdx := by
      have := List.countP_le_length (fun b => !isContByte b) (l := rest)
      omega
    simp only [charToByteAux, if_pos hle]
    rw [ih]
    · simp [List.length_cons]; omega
    · cases hc : isContByte b <;> simp [hc] at h ⊢ <;> omega

theorem isCharBoundary_length (text : List Nat) :
    isCharBoundary text text.length = true := by
  by_cases h : text.length = 0 <;> simp [isCharBoundary, h]

theorem lineToByteAux_consume (lineIdx : Nat) (l : List Nat) :
    ∀ pos cnt, cnt + countLineBreaks l < lineIdx →
      lineToByteAux lineIdx l pos cnt = pos + l.length := by
  induction l with
  | nil => intro pos cnt _; simp [lineToByteAux]
  | cons b rest ih =>
    intro pos cnt h
    simp only [countLineBreaks] at h
    have hlt : cnt < lineIdx := by omega
    simp only [lineToByteAux, if_pos hlt]
    rw [ih]
    · simp [List.length_cons]; omega
    · omega

/-- The fix-up loop stops immediately on a boundary position. -/
theorem boundaryFixupGo_stop (text : List Nat) (fuel q : Nat)
    (h : isCharBoundary text q = true) :
    boundaryFixupGo text fuel q = q := by
  cases fuel <;> simp [boundaryFixupGo, h]

/-! ## C7: past-the-end metric inputs saturate -/

/-- Claim C7: scanner metric conversions saturate on past-the-end inputs:
`byte_to_char_idx` returns the total char count at or past the length,
`char_to_byte_idx` returns the length at or past the char count, and
`line_to_byte_idx` returns the length past the line-break count. -/
theorem C7_scanner_saturation (text : List Nat) (i n k : Nat) :
    (text.length ≤ i → byteToCharIdx text i = countChars text) ∧
    (countChars text ≤ n → charToByteIdx text n = text.length) ∧
    (countLineBreaks text < k → lineToByteIdx text k = text.length) := by
  refine ⟨fun hi => ?_, fun hn => ?_, fun hk => ?_⟩
  · by_cases h0 : i = 0
    · subst h0
      have : text.length = 0 := by omega
      have hnil : text = [] := List.eq_nil_of_length_eq_zero this
      subst hnil
      simp [byteToCharIdx, countChars]
    · simp [byteToCharIdx, h0, hi]
  · rw [charToByteIdx, charToByteAux_consume]
    · simp
    · rw [countChars_eq_countP] at hn
      omega
  · rw [lineToByteIdx, lineToByteAux_consume]
    · simp only [Nat.zero_add]
      exact boundaryFixupGo_stop text _ _ (isCharBoundary_length text)
    · omega

/-- Witness for C7 at a concrete input. -/
theorem C7_scanner_saturation_witness :
    byteToCharIdx [97, 98, 10] 7 = countChars [97, 98, 10] ∧
    charToByteIdx [97, 98, 10] 3 = 3 ∧
    lineToByteIdx [97, 98, 10] 2 = 3 :=
  ⟨(C7_scanner_saturation [97, 98, 10] 7 3 2).1 (by decide),
   (C7_scanner_saturation [97, 98, 10] 7 3 2).2.1 (by decide),
   (C7_scanner_saturation [97, 98, 10] 7 3 2).2.2 (by decide)⟩

/-! ## C8: byte index inside a multi-byte scalar -/

theorem prevCharBoundary_le (text : List Nat) (i : Nat) :
    prevCharBoundary text i ≤ i := by
  induction i with
  | zero => simp [prevCharBoundary]
  | succ j ih =>
    simp only [prevCharBoundary]
    split
    · exact Nat.le_refl _
    · omega

theorem prevCharBoundary_between (text : List Nat) (i : Nat) :
    ∀ j, prevCharBoundary text i < j → j ≤ i → isCharBoundary text j = false := by
  induction i with
  | zero => intro j h1 h2; omega
  | succ k ih =>
    intro j h1 h2
    simp only [prevCharBoundary] at h1
    by_cases hb : isCharBoundary text (k + 1) = true
    · rw [if_pos hb] at h1; omega
    · rw [if_neg hb] at h1
      rcases Nat.lt_or_ge j (k + 1) with hj | hj
      · exact ih j h1 (by omega)
      · have : j = k + 1 := by omega
        subst this
        simpa using hb

theorem prevCharBoundary_is_boundary (text : List Nat) (i : Nat) :
    prevCharBoundary text i = 0 ∨
      isCharBoundary text (prevCharBoundary text i) = true := by
  induction i with
  | zero => exact Or.inl rfl
  | succ k ih =>
    simp only [prevCharBoundary]
    split
    · right; assumption
    · exact ih

theorem countP_take_stable (text : List Nat) (p : Nat → Bool) (a : Nat) :
    ∀ d c, c = a + d → c ≤ text.length →
      (∀ j, a ≤ j → j < c → ∀ hj : j < text.length, p (text[j]) = false) →
      (text.take c).countP p = (text.take a).countP p := by
  intro d
  induction d with
  | zero => intro c hc _ _; subst hc; rfl
  | succ e ih =>
    intro c hc hlen hmid
    have hc1 : c - 1 < text.length := by omega
    have hstep : text.take c = text.take (c - 1) ++ [text[c - 1]] := by
      have h := List.take_concat_get' text (c - 1) hc1
      have hcc : c - 1 + 1 = c := by omega
      rw [hcc] at h
      exact h.symm
    rw [hstep, List.countP_append]
    have hmidc : p (text[c - 1]) = false := hmid (c - 1) (by omega) (by omega) hc1
    simp only [List.countP_cons, List.countP_nil, hmidc]
    rw [ih (c - 1) (by omega) (by omega) (fun j h1 h2 hj => hmid j h1 (by omega) hj)]
    simp

set_option maxRecDepth 100000 in
/-- Claim C8: a byte index strictly inside a multi-byte scalar maps to the
scalar the byte belongs to, that is, `byte_to_char_idx` gives the same
answer as at the previous char boundary; concretely, on the S1 text the
index at byte 90 is 88. -/
theorem C8_mid_scalar_maps_back :
    (∀ (text : List Nat) (i : Nat) (h1 : 0 < i) (h2 : i < text.length),
      isContByte (text.get ⟨i, h2⟩) = true →
      byteToCharIdx text i = byteToCharIdx text (prevCharBoundary text i)) ∧
    byteToCharIdx textS1 90 = 88 := by
  constructor
  · intro text i h1 h2 hcont
    have hnotb : isCharBoundary text i = false := by
      simp only [isCharBoundary]
      rw [if_neg (by omega), if_neg (by omega), dif_pos h2, hcont]
      rfl
    set b := prevCharBoundary text i with hb
    have hble : b ≤ i := prevCharBoundary_le text i
    have hbne : b ≠ i := by
      intro he
      rcases prevCharBoundary_is_boundary text i with h0 | hbd
      · omega
      · rw [← hb, he, hnotb] at hbd; cases hbd
    have hblt : b < i := by omega
    have hmid : ∀ j, b + 1 ≤ j → j < i + 1 → ∀ hj : j < text.length,
        (fun x => !isContByte x) (text[j]) = false := by
      intro j hj1 hj2 hj
      rcases Nat.lt_or_ge j i with hji | hji
      · have hf : isCharBoundary text j = false :=
          prevCharBoundary_between text i j (by omega) (by omega)
        simp only [isCharBoundary] at hf
        rw [if_neg (by omega), if_neg (by omega), dif_pos hj] at hf
        simpa using hf
      · have hji2 : j = i := by omega
        subst hji2
        have hc2 : isContByte text[j] = true := hcont
        simp [hc2]
    have hstable : (text.take (i + 1)).countP (fun x => !isContByte x) =
        (text.take (b + 1)).countP (fun x => !isContByte x) :=
      countP_take_stable text _ (b + 1) (i - b) (i + 1) (by omega) (by omega) hmid
    have hlhs : byteToCharIdx text i =
        (text.take (b + 1)).countP (fun x => !isContByte x) - 1 := by
      simp only [byteToCharIdx]
      rw [if_neg (by omega), if_neg (by omega), countChars_eq_countP, hstable]
    by_cases hb0 : b = 0
    · have hrhs : byteToCharIdx text b = 0 := by
        rw [hb0]; simp [byteToCharIdx]
      rw [hlhs, hrhs, hb0]
      have hcp : (text.take 1).countP (fun x => !isContByte x) ≤ (text.take 1).length :=
        List.countP_le_length _
      have hl1 : (text.take 1).length ≤ 1 := by
        simp [List.length_take]
      simp only [Nat.zero_add]
      omega
    · rw [hlhs]
      simp only [byteToCharIdx]
      rw [if_neg hb0, if_neg (by omega), countChars_eq_countP]
  · decide

/-- Witness for C8 at a concrete input: byte 1 sits inside the 3-byte scalar
of `[0xE3, 0x81, 0x9B]`. -/
theorem C8_mid_scalar_maps_back_witness :
    byteToCharIdx [0xE3, 0x81, 0x9B] 1 =
      byteToCharIdx [0xE3, 0x81, 0x9B] (prevCharBoundary [0xE3, 0x81, 0x9B] 1) :=
  C8_mid_scalar_maps_back.1 [0xE3, 0x81, 0x9B] 1 (by decide) (by decide) (by decide)

/-! ## C5: char/byte round trip -/

set_option maxRecDepth 10000 in
theorem noncont_of_ascii : ∀ b < 0x80, isContByte b = false := by decide

set_option maxRecDepth 10000 in
theorem noncont_of_high : ∀ b < 0x100, 0xC0 ≤ b → isContByte b = false := by decide

set_option maxRecDepth 10000 in
theorem cont_of_body : ∀ b < 0xC0, 0x80 ≤ b → isContByte b = true := by decide

theorem charToByteAux_cons_noncont (charIdx b : Nat) (l : List Nat)
    (pos cnt : Nat) (hb : isContByte b = false) (h : cnt ≤ charIdx) :
    charToByteAux charIdx (b :: l) pos cnt =
      charToByteAux charIdx l (pos + 1) (cnt + 1) := by
  simp [charToByteAux, h, hb]

theorem charToByteAux_cons_cont (charIdx b : Nat) (l : List Nat)
    (pos cnt : Nat) (hb : isContByte b = true) (h : cnt ≤ charIdx) :
    charToByteAux charIdx (b :: l) pos cnt =
      charToByteAux charIdx l (pos + 1) cnt := by
  simp [charToByteAux, h, hb]

theorem encodeChar_ne_nil (c : Nat) : encodeChar c ≠ [] := by
  simp only [encodeChar]
  split <;> try split <;> try split
  all_goals simp

theorem utf8Encode_cons (c : Nat) (rest : List Nat) :
    utf8Encode (c :: rest) = encodeChar c ++ utf8Encode rest := by
  simp [utf8Encode]

theorem utf8Encode_append (a b : List Nat) :
    utf8Encode (a ++ b) = utf8Encode a ++ utf8Encode b := by
  induction a with
  | nil => simp [utf8Encode]
  | cons c r ih =>
    rw [List.cons_append, utf8Encode_cons, utf8Encode_cons, ih, List.append_assoc]

/-- Every encoded scalar contributes exactly one non-continuation byte. -/
theorem countP_noncont_encodeChar (c : Nat) (hc : c < 0x110000) :
    (encodeChar c).countP (fun b => !isContByte b) = 1 := by
  simp only [encodeChar]
  by_cases h1 : c < 0x80
  · rw [if_pos h1]
    simp [List.countP_cons, noncont_of_ascii c h1]
  · rw [if_neg h1]
    by_cases h2 : c < 0x800
    · rw [if_pos h2]
      have hl : isContByte (0xC0 + c / 64) = false :=
        noncont_of_high _ (by omega) (by omega)
      have hb : isContByte (0x80 + c % 64) = true :=
        cont_of_body _ (by omega) (by omega)
      simp [List.countP_cons, hl, hb]
    · rw [if_neg h2]
      by_cases h3 : c < 0x10000
      · rw [if_pos h3]
        have hl : isContByte (0xE0 + c / 4096) = false :=
          noncont_of_high _ (by omega) (by omega)
        have hb1 : isContByte (0x80 + c / 64 % 64) = true :=
          cont_of_body _ (by omega) (by omega)
        have hb2 : isContByte (0x80 + c % 64) = true :=
          cont_of_body _ (by omega) (by omega)
        simp [List.countP_cons, hl, hb1, hb2]
      · rw [if_neg h3]
        have hl : isContByte (0xF0 + c / 0x40000) = false :=
          noncont_of_high _ (by omega) (by omega)
        have hb1 : isContByte (0x80 + c / 4096 % 64) = true :=
          cont_of_body _ (by omega) (by omega)
        have hb2 : isContByte (0x80 + c / 64 % 64) = true :=
          cont_of_body _ (by omega) (by omega)
        have hb3 : isContByte (0x80 + c % 64) = true :=
          cont_of_body _ (by omega) (by omega)
        simp [List.countP_cons, hl, hb1, hb2, hb3]

/-- The first byte of an encoded scalar is the char start. -/
theorem countP_noncont_take1_encodeChar (c : Nat) (hc : c < 0x110000) :
    ((encodeChar c).take 1).countP (fun b => !isContByte b) = 1 := by
  simp only [encodeChar]
  by_cases h1 : c < 0x80
  · rw [if_pos h1]
    simp [List.countP_cons, noncont_of_ascii c h1]
  · rw [if_neg h1]
    by_cases h2 : c < 0x800
    · rw [if_pos h2]
      have hl : isContByte (0xC0 + c / 64) = false :=
        noncont_of_high _ (by omega) (by omega)
      simp [List.countP_cons, hl]
    · rw [if_neg h2]
      by_cases h3 : c < 0x10000
      · rw [if_pos h3]
        have hl : isContByte (0xE0 + c / 4096) = false :=
          noncont_of_high _ (by omega) (by omega)
        simp [List.countP_cons, hl]
      · rw [if_neg h3]
        have hl : isContByte (0xF0 + c / 0x40000) = false :=
          noncont_of_high _ (by omega) (by omega)
        simp [List.countP_cons, hl]

/-- Char count of an encoded scalar sequence is its length. -/
theorem countChars_utf8Encode (cs : List Nat) (hv : ValidScalars cs) :
    countChars (utf8Encode cs) = cs.length := by
  induction cs with
  | nil => simp [utf8Encode, countChars]
  | cons c rest ih =>
    have hc : c < 0x110000 := hv c (List.mem_cons_self c rest)
    have hrest : ValidScalars rest := fun x hx => hv x (List.mem_cons_of_mem c hx)
    rw [utf8Encode_cons, countChars_eq_countP, List.countP_append,
      countP_noncont_encodeChar c hc, ← countChars_eq_countP, ih hrest]
    simp [List.length_cons]
    omega

theorem charToByteAux_stop (charIdx : Nat) (l : List Nat) (pos cnt : Nat)
    (h : charIdx < cnt) : charToByteAux charIdx l pos cnt = pos - 1 := by
  cases l <;> simp [charToByteAux, Nat.not_le.mpr h]

/-- Consuming one whole encoded scalar while the target has not been
reached. -/
theorem charToByteAux_consume_char (n c : Nat) (hc : c < 0x110000)
    (B : List Nat) (pos cnt : Nat) (h : cnt < n) :
    charToByteAux n (encodeChar c ++ B) pos cnt =
      charToByteAux n B (pos + (encodeChar c).length) (cnt + 1) := by
  have hle : cnt ≤ n := Nat.le_of_lt h
  have hle1 : cnt + 1 ≤ n := h
  simp only [encodeChar]
  by_cases h1 : c < 0x80
  · rw [if_pos h1]
    simp only [List.cons_append, List.nil_append, List.length_cons,
      List.length_nil]
    rw [charToByteAux_cons_noncont n _ _ _ _ (noncont_of_ascii c h1) hle]
  · rw [if_neg h1]
    by_cases h2 : c < 0x800
    · rw [if_pos h2]
      have hl : isContByte (0xC0 + c / 64) = false :=
        noncont_of_high _ (by omega) (by omega)
      have hb : isContByte (0x80 + c % 64) = true :=
        cont_of_body _ (by omega) (by omega)
      simp only [List.cons_append, List.nil_append, List.length_cons,
        List.length_nil]
      rw [charToByteAux_cons_noncont n _ _ _ _ hl hle,
        charToByteAux_cons_cont n _ _ _ _ hb hle1]
    · rw [if_neg h2]
      by_cases h3 : c < 0x10000
      · rw [if_pos h3]
        have hl : isContByte (0xE0 + c / 4096) = false :=
          noncont_of_high _ (by omega) (by omega)
        have hb1 : isContByte (0x80 + c / 64 % 64) = true :=
          cont_of_body _ (by omega) (by omega)
        have hb2 : isContByte (0x80 + c % 64) = true :=
          cont_of_body _ (by omega) (by omega)
        simp only [List.cons_append, List.nil_append, List.length_cons,
          List.length_nil]
        rw [charToByteAux_cons_noncont n _ _ _ _ hl hle,
          charToByteAux_cons_cont n _ _ _ _ hb1 hle1,
          charToByteAux_cons_cont n _ _ _ _ hb2 hle1]
      · rw [if_neg h3]
        have hl : isContByte (0xF0 + c / 0x40000) = false :=
          noncont_of_high _ (by omega) (by omega)
        have hb1 : isContByte (0x80 + c / 4096 % 64) = true :=
          cont_of_body _ (by omega) (by omega)
        have hb2 : isContByte (0x80 + c / 64 % 64) = true :=
          cont_of_body _ (by omega) (by omega)
        have hb3 : isContByte (0x80 + c % 64) = true :=
          cont_of_body _ (by omega) (by omega)
        simp only [List.cons_append, List.nil_append, List.length_cons,
          List.length_nil]
        rw [charToByteAux_cons_noncont n _ _ _ _ hl hle,
          charToByteAux_cons_cont n _ _ _ _ hb1 hle1,
          charToByteAux_cons_cont n _ _ _ _ hb2 hle1,
          charToByteAux_cons_cont n _ _ _ _ hb3 hle1]

/-- Stopping exactly at the scalar whose index equals the target: the scan
consumes its first byte, overshoots, and backs up to the scalar start. -/
theorem charToByteAux_stop_char (n c : Nat) (hc : c < 0x110000)
    (B : List Nat) (pos : Nat) :
    charToByteAux n (encodeChar c ++ B) pos n = pos := by
  simp only [encodeChar]
  by_cases h1 : c < 0x80
  · rw [if_pos h1]
    simp only [List.cons_append, List.nil_append]
    rw [charToByteAux_cons_noncont n _ _ _ _ (noncont_of_ascii c h1) (Nat.le_refl n),
      charToByteAux_stop n B _ _ (by omega)]
    omega
  · rw [if_neg h1]
    by_cases h2 : c < 0x800
    · rw [if_pos h2]
      have hl : isContByte (0xC0 + c / 64) = false :=
        noncont_of_high _ (by omega) (by omega)
      simp only [List.cons_append, List.nil_append]
      rw [charToByteAux_cons_noncont n _ _ _ _ hl (Nat.le_refl n),
        charToByteAux_stop n _ _ _ (by omega)]
      omega
    · rw [if_neg h2]
      by_cases h3 : c < 0x10000
      · rw [if_pos h3]
        have hl : isContByte (0xE0 + c / 4096) = false :=
          noncont_of_high _ (by omega) (by omega)
        simp only [List.cons_append, List.nil_append]
        rw [charToByteAux_cons_noncont n _ _ _ _ hl (Nat.le_refl n),
          charToByteAux_stop n _ _ _ (by omega)]
        omega
      · rw [if_neg h3]
        have hl : isContByte (0xF0 + c / 0x40000) = false :=
          noncont_of_high _ (by omega) (by omega)
        simp only [List.cons_append, List.nil_append]
        rw [charToByteAux_cons_noncont n _ _ _ _ hl (Nat.le_refl n),
          charToByteAux_stop n _ _ _ (by omega)]
        omega

/-- Characterization of the `char_to_byte_idx` scan over encoded text: it
returns the byte length of the first `n - cnt` scalars (all of them when
fewer remain). -/
theorem charToByteAux_encode (n : Nat) (cs : List Nat) :
    ∀ pos cnt, ValidScalars cs → cnt ≤ n →
      charToByteAux n (utf8Encode cs) pos cnt =
        pos + (utf8Encode (cs.take (n - cnt))).length := by
  induction cs with
  | nil =>
    intro pos cnt _ hle
    simp [utf8Encode, charToByteAux, hle]
  | cons c rest ih =>
    intro pos cnt hv hle
    have hc : c < 0x110000 := hv c (List.mem_cons_self c rest)
    have hrest : ValidScalars rest := fun x hx => hv x (List.mem_cons_of_mem c hx)
    rcases Nat.lt_or_ge cnt n with hlt | hge
    · rw [utf8Encode_cons, charToByteAux_consume_char n c hc _ pos cnt hlt,
        ih _ (cnt + 1) hrest hlt]
      have htake : (c :: rest).take (n - cnt) = c :: rest.take (n - (cnt + 1)) := by
        have h1 : n - cnt = (n - (cnt + 1)) + 1 := by omega
        rw [h1, List.take_succ_cons]
      rw [htake, utf8Encode_cons, List.length_append]
      omega
    · have heq : cnt = n := by omega
      subst heq
      rw [utf8Encode_cons, charToByteAux_stop_char cnt c hc _ pos]
      simp [Nat.sub_self, utf8Encode]

/-- Claim C5: for valid UTF-8 text and any valid char index `n`,
`byte_to_char_idx (char_to_byte_idx n) = n`. -/
theorem C5_char_byte_roundtrip (cs : List Nat) (n : Nat) (hv : ValidScalars cs)
    (hn : n ≤ countChars (utf8Encode cs)) :
    byteToCharIdx (utf8Encode cs) (charToByteIdx (utf8Encode cs) n) = n := by
  have hcount : countChars (utf8Encode cs) = cs.length := countChars_utf8Encode cs hv
  have hncs : n ≤ cs.length := by omega
  have hB : charToByteIdx (utf8Encode cs) n = (utf8Encode (cs.take n)).length := by
    rw [charToByteIdx, charToByteAux_encode n cs 0 0 hv (Nat.zero_le n)]
    simp
  rw [hB]
  have hsplit : utf8Encode cs = utf8Encode (cs.take n) ++ utf8Encode (cs.drop n) := by
    have h := utf8Encode_append (cs.take n) (cs.drop n)
    rw [List.take_append_drop] at h
    exact h
  rcases Nat.eq_or_lt_of_le hncs with heq | hlt
  · have htake : cs.take n = cs := by
      rw [heq]; exact List.take_length cs
    rw [htake, byteToCharIdx]
    by_cases h0 : (utf8Encode cs).length = 0
    · rw [if_pos (by omega)]
      have hc0 : countChars (utf8Encode cs) = 0 := by
        simp only [countChars]
        omega
      omega
    · rw [if_neg (by omega), if_pos (by omega), hcount, heq]
  · -- n < cs.length: the scan landed on the start byte of scalar n.
    obtain ⟨c, rest2, hdrop⟩ : ∃ c rest2, cs.drop n = c :: rest2 := by
      cases hd : cs.drop n with
      | nil =>
        have := List.length_drop n cs
        rw [hd] at this
        simp at this
        omega
      | cons c rest2 => exact ⟨c, rest2, rfl⟩
    have hcmem : c < 0x110000 := by
      apply hv
      have : c ∈ cs.drop n := by rw [hdrop]; exact List.mem_cons_self c rest2
      exact List.mem_of_mem_drop this
    have hvtake : ValidScalars (cs.take n) := fun x hx =>
      hv x (List.mem_of_mem_take hx)
    set B := (utf8Encode (cs.take n)).length with hBdef
    have hBlt : B < (utf8Encode cs).length := by
      rw [hsplit, List.length_append, hdrop, utf8Encode_cons, List.length_append]
      have hne := encodeChar_ne_nil c
      have : 0 < (encodeChar c).length := List.length_pos.mpr hne
      omega
    have htake1 : (utf8Encode cs).take (B + 1) =
        utf8Encode (cs.take n) ++ (encodeChar c).take 1 := by
      rw [hsplit, hBdef]
      rw [List.take_append]
      congr 1
      rw [hdrop, utf8Encode_cons]
      exact List.take_append_of_le_length
        (Nat.one_le_iff_ne_zero.mpr (by
          intro h
          exact encodeChar_ne_nil c (List.eq_nil_of_length_eq_zero h)))
    by_cases hB0 : B = 0
    · have hn0 : n = 0 := by
        by_contra hn0
        have hpos : 0 < n := Nat.pos_of_ne_zero hn0
        obtain ⟨c0, rest0, htk⟩ : ∃ c0 rest0, cs.take n = c0 :: rest0 := by
          cases htk : cs.take n with
          | nil =>
            have := List.length_take n cs
            rw [htk] at this
            simp at this
            omega
          | cons c0 rest0 => exact ⟨c0, rest0, rfl⟩
        rw [hBdef, htk, utf8Encode_cons, List.length_append] at hB0
        have hne := encodeChar_ne_nil c0
        have : 0 < (encodeChar c0).length := List.length_pos.mpr hne
        omega
      rw [hB0, byteToCharIdx, if_pos rfl, hn0]
    · rw [byteToCharIdx, if_neg hB0, if_neg (by omega), htake1,
        countChars_eq_countP, List.countP_append,
        countP_noncont_take1_encodeChar c hcmem, ← countChars_eq_countP,
        countChars_utf8Encode _ hvtake, List.length_take]
      omega

/-- Witness for C5 at a concrete input: the scalars of "aせb", char index 2. -/
theorem C5_char_byte_roundtrip_witness :
    byteToCharIdx (utf8Encode [97, 0x305B, 98])
        (charToByteIdx (utf8Encode [97, 0x305B, 98]) 2) = 2 :=
  C5_char_byte_roundtrip [97, 0x305B, 98] 2
    (by unfold ValidScalars; decide) (by decide)

/-! ## C6: line-break counting matches the per-byte reference iterator -/

theorem countLineBreaks_cons (b : Nat) (l : List Nat) :
    countLineBreaks (b :: l) = lbContrib b l + countLineBreaks l := rfl

theorem lbContrib_of_other (b : Nat) (rest : List Nat)
    (h1 : ¬(0x0A ≤ b ∧ b ≤ 0x0D)) (h2 : b ≠ 0xC2) (h3 : b ≠ 0xE2) :
    lbContrib b rest = 0 := by
  simp only [lbContrib]
  rw [if_neg h1, if_neg h2, if_neg h3]

theorem lbContrib_of_cont (b : Nat) (rest : List Nat)
    (h1 : 0x80 ≤ b) (h2 : b ≤ 0xBF) : lbContrib b rest = 0 :=
  lbContrib_of_other b rest (by omega) (by omega) (by omega)

theorem lbContrib_cr (l : List Nat) :
    lbContrib 0x0D l = if l.head? = some 0x0A then 0 else 1 := by
  simp [lbContrib]

theorem lbContrib_small_break (b : Nat) (l : List Nat)
    (h1 : 0x0A ≤ b) (h2 : b ≤ 0x0C) : lbContrib b l = 1 := by
  simp only [lbContrib]
  rw [if_pos ⟨h1, by omega⟩, if_neg (fun hc => by omega)]

theorem lbContrib_c2 (t : Nat) (l : List Nat) :
    lbContrib 0xC2 (t :: l) = if t = 0x85 then 1 else 0 := by
  simp [lbContrib]

theorem lbContrib_e2 (t1 t2 : Nat) (l : List Nat) :
    lbContrib 0xE2 (t1 :: t2 :: l) =
      if t1 = 0x80 ∧ t2 >>> 1 = 0x54 then 1 else 0 := by
  simp [lbContrib]

theorem charLbContrib_cr (next : Option Nat) :
    charLbContrib 0x0D next = if next = some 0x0A then 0 else 1 := by
  simp [charLbContrib]

theorem charLbContrib_break (c : Nat) (next : Option Nat)
    (h : c = 0x0A ∨ c = 0x0B ∨ c = 0x0C ∨ c = 0x85 ∨ c = 0x2028 ∨ c = 0x2029)
    (h2 : c ≠ 0x0D) : charLbContrib c next = 1 := by
  simp only [charLbContrib]
  rw [if_neg h2, if_pos h]

theorem charLbContrib_other (c : Nat) (next : Option Nat)
    (h2 : c ≠ 0x0D)
    (h : ¬(c = 0x0A ∨ c = 0x0B ∨ c = 0x0C ∨ c = 0x85 ∨ c = 0x2028 ∨ c = 0x2029)) :
    charLbContrib c next = 0 := by
  simp only [charLbContrib]
  rw [if_neg h2, if_neg h]

theorem utf8Encode_head_lf (cs : List Nat) :
    ((utf8Encode cs).head? = some 0x0A) ↔ (cs.head? = some 0x0A) := by
  cases cs with
  | nil => simp [utf8Encode]
  | cons c rest =>
    rw [utf8Encode_cons]
    simp only [encodeChar, List.head?_cons]
    by_cases h1 : c < 0x80
    · rw [if_pos h1]
      simp
    · rw [if_neg h1]
      by_cases h2 : c < 0x800
      · rw [if_pos h2]
        simp only [List.cons_append, List.head?_cons]
        constructor
        · intro h; simp at h; omega
        · intro h; simp at h; omega
      · rw [if_neg h2]
        by_cases h3 : c < 0x10000
        · rw [if_pos h3]
          simp only [List.cons_append, List.head?_cons]
          constructor
          · intro h; simp at h; omega
          · intro h; simp at h; omega
        · rw [if_neg h3]
          simp only [List.cons_append, List.head?_cons]
          constructor
          · intro h; simp at h; omega
          · intro h; simp at h; omega

/-- Per-scalar step of the `count_line_breaks` scan over encoded text. -/
theorem countLineBreaks_encode_cons (c : Nat) (rest : List Nat) :
    countLineBreaks (utf8Encode (c :: rest)) =
      charLbContrib c rest.head? + countLineBreaks (utf8Encode rest) := by
  rw [utf8Encode_cons]
  simp only [encodeChar]
  by_cases h1 : c < 0x80
  · rw [if_pos h1]
    simp only [List.cons_append, List.nil_append]
    rw [countLineBreaks_cons]
    congr 1
    by_cases hcr : c = 0x0D
    · subst hcr
      rw [lbContrib_cr, charLbContrib_cr]
      by_cases h : rest.head? = some 0x0A
      · rw [if_pos ((utf8Encode_head_lf rest).mpr h), if_pos h]
      · rw [if_neg (fun hc => h ((utf8Encode_head_lf rest).mp hc)), if_neg h]
    · by_cases hbr : 0x0A ≤ c ∧ c ≤ 0x0D
      · rw [lbContrib_small_break c _ hbr.1 (by omega),
          charLbContrib_break c _ (by omega) hcr]
      · rw [lbContrib_of_other c _ hbr (by omega) (by omega),
          charLbContrib_other c _ hcr (by omega)]
  · rw [if_neg h1]
    by_cases h2 : c < 0x800
    · rw [if_pos h2]
      simp only [List.cons_append, List.nil_append]
      rw [countLineBreaks_cons, countLineBreaks_cons,
        lbContrib_of_cont (0x80 + c % 64) _ (by omega) (by omega)]
      by_cases hc2 : c < 0xC0
      · have hlead : 0xC0 + c / 64 = 0xC2 := by omega
        rw [hlead, lbContrib_c2]
        by_cases h85 : c = 0x85
        · rw [if_pos (by omega), charLbContrib_break c _ (by omega) (by omega)]
          omega
        · rw [if_neg (by omega), charLbContrib_other c _ (by omega) (by omega)]
          omega
      · rw [lbContrib_of_other _ _ (by omega) (by omega) (by omega),
          charLbContrib_other c _ (by omega) (by omega)]
        omega
    · rw [if_neg h2]
      by_cases h3 : c < 0x10000
      · rw [if_pos h3]
        simp only [List.cons_append, List.nil_append]
        rw [countLineBreaks_cons, countLineBreaks_cons, countLineBreaks_cons,
          lbContrib_of_cont (0x80 + c / 64 % 64) _ (by omega) (by omega),
          lbContrib_of_cont (0x80 + c % 64) _ (by omega) (by omega)]
        by_cases hc2 : 0x2000 ≤ c ∧ c < 0x3000
        · have hlead : 0xE0 + c / 4096 = 0xE2 := by omega
          rw [hlead, lbContrib_e2]
          have hshift : (0x80 + c % 64 : Nat) >>> 1 = (0x80 + c % 64) / 2 := by
            rw [Nat.shiftRight_eq_div_pow]
          by_cases hls : c = 0x2028 ∨ c = 0x2029
          · rw [if_pos ⟨by omega, by rw [hshift]; omega⟩,
              charLbContrib_break c _ (by omega) (by omega)]
            omega
          · rw [if_neg (fun hc => by rw [hshift] at hc; omega),
              charLbContrib_other c _ (by omega) (by omega)]
            omega
        · rw [lbContrib_of_other _ _ (by omega) (by omega) (by omega),
            charLbContrib_other c _ (by omega) (by omega)]
          omega
      · rw [if_neg h3]
        simp only [List.cons_append, List.nil_append]
        rw [countLineBreaks_cons, countLineBreaks_cons, countLineBreaks_cons,
          countLineBreaks_cons,
          lbContrib_of_other (0xF0 + c / 0x40000) _ (by omega) (by omega)
            (by omega),
          lbContrib_of_cont (0x80 + c / 4096 % 64) _ (by omega) (by omega),
          lbContrib_of_cont (0x80 + c / 64 % 64) _ (by omega) (by omega),
          lbContrib_of_cont (0x80 + c % 64) _ (by omega) (by omega),
          charLbContrib_other c _ (by omega) (by omega)]
        omega

/-- The SWAR line-break counter agrees with the character-level reference
on encoded text. -/
theorem countLineBreaks_encode (cs : List Nat) :
    countLineBreaks (utf8Encode cs) = countRefBreaks cs := by
  induction cs with
  | nil => simp [utf8Encode, countLineBreaks, countRefBreaks]
  | cons c rest ih =>
    rw [countLineBreaks_encode_cons, countRefBreaks, ih]

theorem lineBreakIter_skip (b : Nat) (B : List Nat)
    (h1 : ¬(0x0A ≤ b ∧ b ≤ 0x0D)) (h2 : b ≠ 0xC2) (h3 : b ≠ 0xE2) :
    lineBreakIterCount (b :: B) = lineBreakIterCount B := by
  cases B with
  | nil => simp [lineBreakIterCount, h1, h2, h3]
  | cons c rest =>
    cases rest with
    | nil => simp [lineBreakIterCount, h1, h2, h3]
    | cons d r2 => simp [lineBreakIterCount, h1, h2, h3]

theorem lineBreakIter_small_break (b : Nat) (B : List Nat)
    (h1 : 0x0A ≤ b) (h2 : b ≤ 0x0C) :
    lineBreakIterCount (b :: B) = (lineBreakIterCount B).map (· + 1) := by
  have hin : 0x0A ≤ b ∧ b ≤ 0x0D := ⟨h1, by omega⟩
  have hno : ¬b = 0x0D := by omega
  cases B with
  | nil => simp [lineBreakIterCount, hin]
  | cons c rest =>
    cases rest with
    | nil => simp [lineBreakIterCount, hin, hno]
    | cons d r2 => simp [lineBreakIterCount, hin, hno]

theorem lineBreakIter_cr_nolf (B : List Nat) (h : B.head? ≠ some 0x0A) :
    lineBreakIterCount (0x0D :: B) = (lineBreakIterCount B).map (· + 1) := by
  cases B with
  | nil => simp [lineBreakIterCount]
  | cons c rest =>
    have hc : ¬(c = 0x0A) := by simpa using h
    cases rest with
    | nil => simp [lineBreakIterCount, hc]
    | cons d r2 => simp [lineBreakIterCount, hc]

theorem lineBreakIter_crlf (B : List Nat) :
    lineBreakIterCount (0x0D :: 0x0A :: B) = (lineBreakIterCount B).map (· + 1) := by
  cases B with
  | nil => simp [lineBreakIterCount]
  | cons d r2 => simp [lineBreakIterCount]

theorem lineBreakIter_c2 (t : Nat) (B : List Nat) :
    lineBreakIterCount (0xC2 :: t :: B) =
      if t = 0x85 then (lineBreakIterCount B).map (· + 1)
      else lineBreakIterCount B := by
  by_cases h : t = 0x85
  · subst h
    cases B with
    | nil => simp [lineBreakIterCount]
    | cons d r2 => simp [lineBreakIterCount]
  · rw [if_neg h]
    cases B with
    | nil => simp [lineBreakIterCount, h]
    | cons d r2 => simp [lineBreakIterCount, h]

theorem lineBreakIter_e2 (t1 t2 : Nat) (B : List Nat) :
    lineBreakIterCount (0xE2 :: t1 :: t2 :: B) =
      if t1 = 0x80 ∧ t2 >>> 1 = 0x54 then (lineBreakIterCount B).map (· + 1)
      else lineBreakIterCount B := by
  simp [lineBreakIterCount]

theorem countRefBreaks_cons (c : Nat) (rest : List Nat) :
    countRefBreaks (c :: rest) =
      charLbContrib c rest.head? + countRefBreaks rest := rfl

/-- Embedded `LineBreakIter` agrees with the character-level reference on
encoded text. -/
theorem lineBreakIter_encode :
    ∀ (k : Nat) (cs : List Nat), cs.length ≤ k →
      lineBreakIterCount (utf8Encode cs) = some (countRefBreaks cs) := by
  intro k
  induction k with
  | zero =>
    intro cs h
    have hnil : cs = [] := List.eq_nil_of_length_eq_zero (by omega)
    subst hnil
    rfl
  | succ k ih =>
    intro cs hlen
    cases cs with
    | nil => rfl
    | cons c rest =>
      simp only [List.length_cons] at hlen
      have hrlen : rest.length ≤ k := by omega
      rw [utf8Encode_cons, countRefBreaks_cons]
      by_cases hcr : c = 0x0D
      · subst hcr
        have henc : encodeChar 0x0D = [0x0D] := by decide
        rw [henc, charLbContrib_cr]
        by_cases hlf : rest.head? = some 0x0A
        · obtain ⟨rest2, hrest⟩ : ∃ rest2, rest = 0x0A :: rest2 := by
            cases rest with
            | nil => simp at hlf
            | cons r0 rest2 =>
              have : r0 = 0x0A := by simpa using hlf
              exact ⟨rest2, by rw [this]⟩
          subst hrest
          rw [utf8Encode_cons]
          have henc10 : encodeChar 0x0A = [0x0A] := by decide
          rw [henc10]
          simp only [List.singleton_append, List.cons_append, List.nil_append]
          rw [lineBreakIter_crlf,
            ih rest2 (by simp only [List.length_cons] at hrlen; omega),
            countRefBreaks_cons,
            charLbContrib_break 0x0A _ (by omega) (by omega)]
          simp [Nat.add_comm]
        · have hEh : (utf8Encode rest).head? ≠ some 0x0A :=
            fun hc => hlf ((utf8Encode_head_lf rest).mp hc)
          rw [List.singleton_append, lineBreakIter_cr_nolf _ hEh,
            ih rest hrlen, if_neg hlf]
          simp [Nat.add_comm]
      · by_cases h1 : c < 0x80
        · have henc : encodeChar c = [c] := by simp [encodeChar, h1]
          rw [henc, List.singleton_append]
          by_cases hbr : 0x0A ≤ c ∧ c ≤ 0x0D
          · rw [lineBreakIter_small_break c _ hbr.1 (by omega), ih rest hrlen,
              charLbContrib_break c _ (by omega) hcr]
            simp [Nat.add_comm]
          · rw [lineBreakIter_skip c _ hbr (by omega) (by omega), ih rest hrlen,
              charLbContrib_other c _ hcr (by omega)]
            simp
        · by_cases h2 : c < 0x800
          · have henc : encodeChar c = [0xC0 + c / 64, 0x80 + c % 64] := by
              simp [encodeChar, h1, h2]
            rw [henc]
            simp only [List.cons_append, List.nil_append]
            by_cases hc2 : c < 0xC0
            · have hlead : 0xC0 + c / 64 = 0xC2 := by omega
              rw [hlead, lineBreakIter_c2, ih rest hrlen]
              by_cases h85 : c = 0x85
              · rw [if_pos (by omega),
                  charLbContrib_break c _ (by omega) (by omega)]
                simp [Nat.add_comm]
              · rw [if_neg (by omega),
                  charLbContrib_other c _ (by omega) (by omega)]
                simp
            · rw [lineBreakIter_skip _ _ (by omega) (by omega) (by omega),
                lineBreakIter_skip _ _ (by omega) (by omega) (by omega),
                ih rest hrlen, charLbContrib_other c _ (by omega) (by omega)]
              simp
          · by_cases h3 : c < 0x10000
            · have henc : encodeChar c =
                  [0xE0 + c / 4096, 0x80 + c / 64 % 64, 0x80 + c % 64] := by
                simp [encodeChar, h1, h2, h3]
              rw [henc]
              simp only [List.cons_append, List.nil_append]
              by_cases hc2 : 0x2000 ≤ c ∧ c < 0x3000
              · have hlead : 0xE0 + c / 4096 = 0xE2 := by omega
                rw [hlead, lineBreakIter_e2, ih rest hrlen]
                have hshift : (0x80 + c % 64 : Nat) >>> 1 = (0x80 + c % 64) / 2 := by
                  rw [Nat.shiftRight_eq_div_pow]
                by_cases hls : c = 0x2028 ∨ c = 0x2029
                · rw [if_pos ⟨by omega, by rw [hshift]; omega⟩,
                    charLbContrib_break c _ (by omega) (by omega)]
                  simp [Nat.add_comm]
                · rw [if_neg (fun hc => by rw [hshift] at hc; omega),
                    charLbContrib_other c _ (by omega) (by omega)]
                  simp
              · rw [lineBreakIter_skip _ _ (by omega) (by omega) (by omega),
                  lineBreakIter_skip _ _ (by omega) (by omega) (by omega),
                  lineBreakIter_skip _ _ (by omega) (by omega) (by omega),
                  ih rest hrlen, charLbContrib_other c _ (by omega) (by omega)]
                simp
            · have henc : encodeChar c =
                  [0xF0 + c / 0x40000, 0x80 + c / 4096 % 64,
                    0x80 + c / 64 % 64, 0x80 + c % 64] := by
                simp [encodeChar, h1, h2, h3]
              rw [henc]
              simp only [List.cons_append, List.nil_append]
              rw [lineBreakIter_skip _ _ (by omega) (by omega) (by omega),
                lineBreakIter_skip _ _ (by omega) (by omega) (by omega),
                lineBreakIter_skip _ _ (by omega) (by omega) (by omega),
                lineBreakIter_skip _ _ (by omega) (by omega) (by omega),
                ih rest hrlen, charLbContrib_other c _ (by omega) (by omega)]
              simp

set_option maxRecDepth 100000 in
/-- Claim C6: `count_line_breaks` agrees with the naive per-byte reference
iterator `LineBreakIter` on every UTF-8 string, and on the 48-byte S3 text
it returns 8. -/
theorem C6_count_line_breaks_matches_reference :
    (∀ cs : List Nat,
      lineBreakIterCount (utf8Encode cs) =
        some (countLineBreaks (utf8Encode cs))) ∧
    textS3.length = 48 ∧ countLineBreaks textS3 = 8 := by
  refine ⟨fun cs => ?_, by decide, by decide⟩
  rw [countLineBreaks_encode, lineBreakIter_encode cs.length cs (Nat.le_refl _)]

/-! ## C10: the SWAR byte-equality trick is exact in every lane -/

theorem testBit_byte_concat (a b j : Nat) (hb : b < 256) :
    (b + 256 * a).testBit j = if j < 8 then b.testBit j else a.testBit (j - 8) := by
  rcases Nat.lt_or_ge j 8 with hj | hj
  · rw [if_pos hj, Nat.testBit_to_div_mod, Nat.testBit_to_div_mod,
      decide_eq_decide]
    interval_cases j <;> norm_num <;> omega
  · rw [if_neg (by omega), Nat.testBit_to_div_mod, Nat.testBit_to_div_mod,
      decide_eq_decide]
    have h28 : (2:Nat) ^ j = 256 * 2 ^ (j - 8) := by
      rw [show (256:Nat) = 2 ^ 8 from rfl, ← pow_add]
      congr 1
      omega
    have hd : (b + 256 * a) / 2 ^ j = a / 2 ^ (j - 8) := by
      rw [h28, ← Nat.div_div_eq_div_mul]
      congr 1
      omega
    rw [hd]

theorem xor_byte_concat (x y a b : Nat) (hx : x < 256) (hy : y < 256) :
    (x + 256 * a) ^^^ (y + 256 * b) = (x ^^^ y) + 256 * (a ^^^ b) := by
  have hxy : x ^^^ y < 256 :=
    Nat.xor_lt_two_pow (n := 8) (by omega) (by omega)
  apply Nat.eq_of_testBit_eq
  intro i
  rw [Nat.testBit_xor, testBit_byte_concat a x i hx, testBit_byte_concat b y i hy,
    testBit_byte_concat (a ^^^ b) (x ^^^ y) i hxy]
  by_cases hi : i < 8 <;> simp [hi, Nat.testBit_xor]

theorem land_byte_concat (x y a b : Nat) (hx : x < 256) (hy : y < 256) :
    (x + 256 * a) &&& (y + 256 * b) = (x &&& y) + 256 * (a &&& b) := by
  have hxy : x &&& y < 256 := Nat.lt_of_le_of_lt Nat.and_le_left hx
  apply Nat.eq_of_testBit_eq
  intro i
  rw [Nat.testBit_land, testBit_byte_concat a x i hx, testBit_byte_concat b y i hy,
    testBit_byte_concat (a &&& b) (x &&& y) i hxy]
  by_cases hi : i < 8 <;> simp [hi, Nat.testBit_land]

theorem lor_byte_concat (x y a b : Nat) (hx : x < 256) (hy : y < 256) :
    (x + 256 * a) ||| (y + 256 * b) = (x ||| y) + 256 * (a ||| b) := by
  have hxy : x ||| y < 256 :=
    Nat.or_lt_two_pow (n := 8) (by omega) (by omega)
  apply Nat.eq_of_testBit_eq
  intro i
  rw [Nat.testBit_lor, testBit_byte_concat a x i hx, testBit_byte_concat b y i hy,
    testBit_byte_concat (a ||| b) (x ||| y) i hxy]
  by_cases hi : i < 8 <;> simp [hi, Nat.testBit_lor]

set_option maxRecDepth 100000 in
/-- Single-lane core of the SWAR zero-byte test: the high bit of the output
lane is set exactly when the lane is zero. -/
theorem swar_lane_zero : ∀ z < 256,
    ((((((z &&& 0x7F) + 0x7F) ||| z) ^^^ 0xFF) &&& 0x80) =
      if z = 0 then 0x80 else 0) := by decide

theorem swar_lane_exact (x b : Nat) (hx : x < 256) (hb : b < 256) :
    ((((((x ^^^ b) &&& 0x7F) + 0x7F) ||| (x ^^^ b)) ^^^ 0xFF) &&& 0x80) =
      if x = b then 0x80 else 0 := by
  have hz : x ^^^ b < 256 := Nat.xor_lt_two_pow (n := 8) (by omega) (by omega)
  rw [swar_lane_zero (x ^^^ b) hz]
  by_cases h : x = b
  · rw [if_pos (Nat.xor_eq_zero.mpr h), if_pos h]
  · rw [if_neg (fun hc => h (Nat.xor_eq_zero.mp hc)), if_neg h]

theorem pow_mul_succ_byte (n : Nat) : (2:Nat) ^ (8 * (n + 1)) = 256 * 2 ^ (8 * n) := by
  rw [show 8 * (n + 1) = 8 + 8 * n by omega, pow_add]
  norm_num

theorem two_pow_mul_pos (n : Nat) : 0 < (2:Nat) ^ (8 * n) := Nat.pos_pow_of_pos _ (by omega)

/-- Lane-wise evaluation of the full-width SWAR expression of
`cmp_eq_byte`, at any width `n`: the accumulated high bits are `0x80` in
exactly the lanes of `w` equal to `b`. -/
theorem swar_lanes (b : Nat) (hb : b < 256) :
    ∀ n w, w < 2 ^ (8 * n) →
      ((((((w ^^^ b * onesW n) &&& (0x7F * onesW n)) + 0x7F * onesW n) |||
          (w ^^^ b * onesW n)) ^^^ (2 ^ (8 * n) - 1)) &&& (0x80 * onesW n)) =
        0x80 * laneEqSpec b n w := by
  intro n
  induction n with
  | zero =>
    intro w hw
    have hw0 : w = 0 := by simpa using hw
    subst hw0
    simp [onesW, laneEqSpec]
  | succ n ih =>
    intro w hw
    have hx : w % 256 < 256 := Nat.mod_lt w (by omega)
    have hW : w / 256 < 2 ^ (8 * n) := by
      have hp := pow_mul_succ_byte n
      omega
    have hsplit : w = w % 256 + 256 * (w / 256) := (Nat.mod_add_div w 256).symm
    have h1 : b * onesW (n + 1) = b + 256 * (b * onesW n) := by
      simp only [onesW]
      ring
    have h2 : 0x7F * onesW (n + 1) = 0x7F + 256 * (0x7F * onesW n) := by
      simp only [onesW]
      ring
    have h3 : 0x80 * onesW (n + 1) = 0x80 + 256 * (0x80 * onesW n) := by
      simp only [onesW]
      ring
    have h4 : 2 ^ (8 * (n + 1)) - 1 = 0xFF + 256 * (2 ^ (8 * n) - 1) := by
      have hp := pow_mul_succ_byte n
      have hpos := two_pow_mul_pos n
      omega
    have hxb : w % 256 ^^^ b < 256 :=
      Nat.xor_lt_two_pow (n := 8) (by omega) (by omega)
    have e1 : w ^^^ b * onesW (n + 1) =
        (w % 256 ^^^ b) + 256 * (w / 256 ^^^ b * onesW n) := by
      conv_lhs => rw [hsplit, h1]
      exact xor_byte_concat _ b _ (b * onesW n) hx hb
    have e2 : (w ^^^ b * onesW (n + 1)) &&& (0x7F * onesW (n + 1)) =
        ((w % 256 ^^^ b) &&& 0x7F) +
          256 * ((w / 256 ^^^ b * onesW n) &&& (0x7F * onesW n)) := by
      rw [e1, h2]
      exact land_byte_concat _ _ _ _ hxb (by omega)
    have hlow1 : (w % 256 ^^^ b) &&& 0x7F ≤ 0x7F := Nat.and_le_right
    have e3 : ((w ^^^ b * onesW (n + 1)) &&& (0x7F * onesW (n + 1))) +
          0x7F * onesW (n + 1) =
        (((w % 256 ^^^ b) &&& 0x7F) + 0x7F) +
          256 * (((w / 256 ^^^ b * onesW n) &&& (0x7F * onesW n)) +
            0x7F * onesW n) := by
      rw [e2, h2]
      ring
    have e4 : (((w ^^^ b * onesW (n + 1)) &&& (0x7F * onesW (n + 1))) +
            0x7F * onesW (n + 1)) ||| (w ^^^ b * onesW (n + 1)) =
        ((((w % 256 ^^^ b) &&& 0x7F) + 0x7F) ||| (w % 256 ^^^ b)) +
          256 * (((((w / 256 ^^^ b * onesW n) &&& (0x7F * onesW n)) +
            0x7F * onesW n)) ||| (w / 256 ^^^ b * onesW n)) := by
      rw [e3, e1]
      exact lor_byte_concat _ _ _ _ (by omega) hxb
    have hlow2 : (((w % 256 ^^^ b) &&& 0x7F) + 0x7F) ||| (w % 256 ^^^ b) < 256 :=
      Nat.or_lt_two_pow (n := 8) (by omega) (by omega)
    have e5 : ((((w ^^^ b * onesW (n + 1)) &&& (0x7F * onesW (n + 1))) +
            0x7F * onesW (n + 1)) ||| (w ^^^ b * onesW (n + 1))) ^^^
          (2 ^ (8 * (n + 1)) - 1) =
        (((((w % 256 ^^^ b) &&& 0x7F) + 0x7F) ||| (w % 256 ^^^ b)) ^^^ 0xFF) +
          256 * ((((((w / 256 ^^^ b * onesW n) &&& (0x7F * onesW n)) +
            0x7F * onesW n)) ||| (w / 256 ^^^ b * onesW n)) ^^^
              (2 ^ (8 * n) - 1)) := by
      rw [e4, h4]
      exact xor_byte_concat _ _ _ _ hlow2 (by omega)
    have hlow3 : ((((w % 256 ^^^ b) &&& 0x7F) + 0x7F) ||| (w % 256 ^^^ b)) ^^^ 0xFF
        < 256 :=
      Nat.xor_lt_two_pow (n := 8) (by omega) (by omega)
    have e6 : (((((w ^^^ b * onesW (n + 1)) &&& (0x7F * onesW (n + 1))) +
            0x7F * onesW (n + 1)) ||| (w ^^^ b * onesW (n + 1))) ^^^
          (2 ^ (8 * (n + 1)) - 1)) &&& (0x80 * onesW (n + 1)) =
        ((((((w % 256 ^^^ b) &&& 0x7F) + 0x7F) ||| (w % 256 ^^^ b)) ^^^ 0xFF)
            &&& 0x80) +
          256 * (((((((w / 256 ^^^ b * onesW n) &&& (0x7F * onesW n)) +
            0x7F * onesW n)) ||| (w / 256 ^^^ b * onesW n)) ^^^
              (2 ^ (8 * n) - 1)) &&& (0x80 * onesW n)) := by
      rw [e5, h3]
      exact land_byte_concat _ _ _ _ hlow3 (by omega)
    rw [e6, ih (w / 256) hW, swar_lane_exact (w % 256) b hx hb]
    show _ = 0x80 * ((if w % 256 = b then 1 else 0) + 256 * laneEqSpec b n (w / 256))
    by_cases h : w % 256 = b
    · rw [if_pos h, if_pos h]
      ring
    · rw [if_neg h, if_neg h]
      ring

theorem getByteLane_eq_div_mod (x i : Nat) :
    getByteLane x i = x / 2 ^ (8 * i) % 256 := by
  rw [getByteLane, Nat.shiftRight_eq_div_pow,
    show (0xFF:Nat) = 2 ^ 8 - 1 from rfl, Nat.and_pow_two_sub_one_eq_mod]

theorem laneEqSpec_getByte (b : Nat) :
    ∀ n w i, i < n →
      getByteLane (laneEqSpec b n w) i = if getByteLane w i = b then 1 else 0 := by
  intro n
  induction n with
  | zero => intro w i h; omega
  | succ n ih =>
    intro w i hi
    cases i with
    | zero =>
      rw [getByteLane_eq_div_mod, getByteLane_eq_div_mod]
      simp only [Nat.mul_zero, pow_zero, Nat.div_one]
      show laneEqSpec b (n + 1) w % 256 = _
      rw [laneEqSpec]
      by_cases h : w % 256 = b
      · rw [if_pos h]
        omega
      · rw [if_neg h]
        omega
    | succ i =>
      have hstep : ∀ y : Nat, y / 2 ^ (8 * (i + 1)) = y / 256 / 2 ^ (8 * i) := by
        intro y
        rw [Nat.div_div_eq_div_mul, ← pow_mul_succ_byte i]
      rw [getByteLane_eq_div_mod, getByteLane_eq_div_mod, hstep, hstep,
        ← getByteLane_eq_div_mod, ← getByteLane_eq_div_mod]
      have hdiv : laneEqSpec b (n + 1) w / 256 = laneEqSpec b n (w / 256) := by
        rw [laneEqSpec]
        by_cases h : w % 256 = b
        · rw [if_pos h]
          omega
        · rw [if_neg h]
          omega
      rw [hdiv]
      exact ih (w / 256) i (by omega)

/-- The full 64-bit `cmp_eq_byte` equals the lane specification. -/
theorem cmpEqByte_eq_spec (w b : Nat) (hw : w < 2 ^ 64) (hb : b < 256) :
    cmpEqByte w b = laneEqSpec b 8 w := by
  have hc1 : onesW 8 <<< 7 = 0x80 * onesW 8 := by decide
  have hc2 : (onesW 8 <<< 7) ^^^ (2 ^ 64 - 1) = 0x7F * onesW 8 := by decide
  have hc3 : (2:Nat) ^ 64 - 1 = 2 ^ (8 * 8) - 1 := by norm_num
  have hw8 : w < 2 ^ (8 * 8) := by norm_num at hw ⊢; omega
  simp only [cmpEqByte]
  rw [hc2, hc1, hc3, swar_lanes b hb 8 w hw8, Nat.shiftRight_eq_div_pow]
  norm_num

/-- Claim C10: `<usize as ByteChunk>::cmp_eq_byte` sets byte lane `i` of the
result to 1 exactly when byte lane `i` of the word equals `b`, with no false
positives or negatives in any lane. -/
theorem C10_cmp_eq_byte_exact (w b : Nat) (hw : w < 2 ^ 64) (hb : b < 256) :
    ∀ i < 8, getByteLane (cmpEqByte w b) i =
      if getByteLane w i = b then 1 else 0 := by
  intro i hi
  rw [cmpEqByte_eq_spec w b hw hb]
  exact laneEqSpec_getByte b 8 w i hi

/-- Witness for C10 at the word of the Rust test `flag_bytes_01` and byte
0xE2, lane 2. -/
theorem C10_cmp_eq_byte_exact_witness :
    getByteLane (cmpEqByte 0xE20908A6E2A6E209 0xE2) 2 =
      if getByteLane 0xE20908A6E2A6E209 2 = 0xE2 then 1 else 0 :=
  C10_cmp_eq_byte_exact 0xE20908A6E2A6E209 0xE2 (by norm_num) (by norm_num)
    2 (by norm_num)

/-! ## C3: rope equality/ordering versus string forms

The `Ord::cmp` loop has a slip in its `chunk1.len() < chunk2.len()` branch:
`chunk1` is emptied before `chunk2` is sliced by `chunk1.len()`, so the
compared prefix of `chunk2` is never consumed and is compared again against
the next chunk of rope 1.  The theorem below evaluates the embedded loop at
the failing input. -/

/-- Claim C3 divergence: the two ropes hold the same bytes `"ab"` — so the
spec's lexicographic comparison of the string forms is `eq` — yet
`Ord::cmp` returns `gt` when rope 1 is chunked as `["a", "b"]` and rope 2
as `["ab"]`. -/
theorem C3_cmp_divergence :
    List.flatten [[97], [98]] = List.flatten [[97, 98]] ∧
    stringFormCmp [[97], [98]] [[97, 98]] = Ordering.eq ∧
    ropeCmp [[97], [98]] [[97, 98]] = Ordering.gt := by
  refine ⟨rfl, rfl, ?_⟩
  simp [ropeCmp, ropeCmpLoop, byteListCmp]

/-! ## C9: hash write protocol -/

theorem hashFeed_nil (buffer : List Nat) : hashFeed buffer [] = ([], buffer) := by
  rw [hashFeed]
  simp

theorem hashFeed_block_1 (buffer data : List Nat) (hd : ¬data = [])
    (hc : buffer = [] ∧ 256 ≤ data.length) :
    (hashFeed buffer data).1 = data.take 256 :: (hashFeed [] (data.drop 256)).1 := by
  rw [hashFeed, dif_neg hd, if_pos hc]

theorem hashFeed_block_2 (buffer data : List Nat) (hd : ¬data = [])
    (hc : buffer = [] ∧ 256 ≤ data.length) :
    (hashFeed buffer data).2 = (hashFeed [] (data.drop 256)).2 := by
  rw [hashFeed, dif_neg hd, if_pos hc]

theorem hashFeed_flush_1 (buffer data : List Nat) (hd : ¬data = [])
    (hc : ¬(buffer = [] ∧ 256 ≤ data.length)) (hb : 256 ≤ buffer.length) :
    (hashFeed buffer data).1 = buffer :: (hashFeed [] data).1 := by
  rw [hashFeed, dif_neg hd, if_neg hc, dif_pos hb]

theorem hashFeed_flush_2 (buffer data : List Nat) (hd : ¬data = [])
    (hc : ¬(buffer = [] ∧ 256 ≤ data.length)) (hb : 256 ≤ buffer.length) :
    (hashFeed buffer data).2 = (hashFeed [] data).2 := by
  rw [hashFeed, dif_neg hd, if_neg hc, dif_pos hb]

theorem hashFeed_fill (buffer data : List Nat) (hd : ¬data = [])
    (hc : ¬(buffer = [] ∧ 256 ≤ data.length)) (hb : ¬256 ≤ buffer.length) :
    hashFeed buffer data =
      hashFeed (buffer ++ data.take (min (256 - buffer.length) data.length))
        (data.drop (min (256 - buffer.length) data.length)) := by
  rw [hashFeed, dif_neg hd, if_neg hc, dif_neg hb]

theorem hashFeed_spec :
    ∀ (buffer data : List Nat), buffer.length ≤ 256 →
      (∀ l ∈ (hashFeed buffer data).1, l.length = 256) ∧
      (hashFeed buffer data).2.length ≤ 256 ∧
      (hashFeed buffer data).1.flatten ++ (hashFeed buffer data).2 =
        buffer ++ data := by
  intro buffer data
  induction buffer, data using hashFeed.induct with
  | case1 buffer =>
    intro hb
    rw [hashFeed_nil]
    exact ⟨by intro l hl; simp at hl, hb, by simp⟩
  | case2 buffer data hd hcase ih =>
    intro hb
    obtain ⟨ih1, ih2, ih3⟩ := ih (by simp)
    rw [hashFeed_block_1 buffer data hd hcase, hashFeed_block_2 buffer data hd hcase]
    refine ⟨?_, ih2, ?_⟩
    · intro l hl
      rcases List.mem_cons.mp hl with h | h
      · rw [h, List.length_take]
        omega
      · exact ih1 l h
    · simp only [List.flatten_cons, List.append_assoc]
      rw [ih3, hcase.1]
      simp
  | case3 buffer data hd hcase hb256 ih =>
    intro hb
    obtain ⟨ih1, ih2, ih3⟩ := ih (by simp)
    rw [hashFeed_flush_1 buffer data hd hcase hb256,
      hashFeed_flush_2 buffer data hd hcase hb256]
    refine ⟨?_, ih2, ?_⟩
    · intro l hl
      rcases List.mem_cons.mp hl with h | h
      · rw [h]; omega
      · exact ih1 l h
    · simp only [List.flatten_cons, List.append_assoc]
      rw [ih3]
      simp
  | case4 buffer data hd hcase hb256 n ih =>
    intro hb
    have hn : n = min (256 - buffer.length) data.length := rfl
    have hlen : (buffer ++ data.take n).length ≤ 256 := by
      simp only [List.length_append, List.length_take, hn]
      omega
    obtain ⟨ih1, ih2, ih3⟩ := ih hlen
    rw [hashFeed_fill buffer data hd hcase hb256, ← hn]
    refine ⟨ih1, ih2, ?_⟩
    rw [ih3, List.append_assoc, List.take_append_drop]

theorem blocks256_unique :
    ∀ (ws : List (List Nat)) (buf : List Nat),
      (∀ l ∈ ws, l.length = 256) → buf.length ≤ 256 →
      ws ++ (if buf = [] then [] else [buf]) = blocks256 (ws.flatten ++ buf) := by
  intro ws
  induction ws with
  | nil =>
    intro buf _ hlen
    by_cases hb : buf = []
    · rw [if_pos hb, hb]
      rw [blocks256]
      simp
    · rw [if_neg hb]
      rw [blocks256]
      simp only [List.flatten_nil, List.nil_append]
      rw [if_neg hb, if_pos hlen]
  | cons w ws ih =>
    intro buf hws hlen
    have hw : w.length = 256 := hws w (List.mem_cons_self w ws)
    have hrest : ∀ l ∈ ws, l.length = 256 :=
      fun l hl => hws l (List.mem_cons_of_mem w hl)
    have hsplit : (w :: ws).flatten ++ buf = w ++ (ws.flatten ++ buf) := by
      simp
    rw [hsplit]
    by_cases hend : ws = [] ∧ buf = []
    · rw [hend.1, hend.2]
      have hwne : w ≠ [] := by
        intro h
        rw [h] at hw
        simp at hw
      have hrhs : blocks256 (w ++ (List.flatten ([] : List (List Nat)) ++
          ([] : List Nat))) = [w] := by
        have harg : w ++ (List.flatten ([] : List (List Nat)) ++ ([] : List Nat))
            = w := by simp
        rw [harg, blocks256, if_neg hwne, if_pos (le_of_eq hw)]
      rw [hrhs]
      simp
    · have hflat : ws.flatten ++ buf ≠ [] := by
        intro hc
        rcases List.append_eq_nil.mp hc with ⟨h1, h2⟩
        apply hend
        refine ⟨?_, h2⟩
        cases ws with
        | nil => rfl
        | cons x xs =>
          have hx : x ++ xs.flatten = [] := by
            simpa using h1
          have h256 := hrest x (List.mem_cons_self x xs)
          rcases List.append_eq_nil.mp hx with ⟨hx1, _⟩
          rw [hx1] at h256
          simp at h256
      have hfpos : 0 < ws.flatten.length + buf.length := by
        have h0 := List.length_pos.mpr hflat
        simpa using h0
      have hne : w ++ (ws.flatten ++ buf) ≠ [] := by
        intro h
        have h2 := congrArg List.length h
        simp only [List.length_append, List.length_nil] at h2
        omega
      have hgt : ¬(w ++ (ws.flatten ++ buf)).length ≤ 256 := by
        simp only [List.length_append, hw]
        omega
      rw [blocks256, if_neg hne, if_neg hgt]
      have htake : (w ++ (ws.flatten ++ buf)).take 256 = w := by
        rw [← hw, List.take_left]
      have hdrop : (w ++ (ws.flatten ++ buf)).drop 256 = ws.flatten ++ buf := by
        rw [← hw, List.drop_left]
      rw [htake, hdrop, ← ih buf hrest hlen]
      simp

theorem hashTrace_foldl_spec :
    ∀ (chunks : List (List Nat)) (ws : List (List Nat)) (buf : List Nat),
      (∀ l ∈ ws, l.length = 256) → buf.length ≤ 256 →
      let r := chunks.foldl
        (fun acc chunk =>
          let out := hashFeed acc.2 chunk
          (acc.1 ++ out.1, out.2)) (ws, buf)
      (∀ l ∈ r.1, l.length = 256) ∧ r.2.length ≤ 256 ∧
        r.1.flatten ++ r.2 = ws.flatten ++ buf ++ chunks.flatten := by
  intro chunks
  induction chunks with
  | nil =>
    intro ws buf hws hb
    exact ⟨hws, hb, by simp⟩
  | cons chunk rest ih =>
    intro ws buf hws hb
    obtain ⟨f1, f2, f3⟩ := hashFeed_spec buf chunk hb
    obtain ⟨r1, r2, r3⟩ := ih (ws ++ (hashFeed buf chunk).1)
      (hashFeed buf chunk).2
      (by
        intro l hl
        rcases List.mem_append.mp hl with h | h
        · exact hws l h
        · exact f1 l h)
      f2
    refine ⟨r1, r2, ?_⟩
    have key : (ws ++ (hashFeed buf chunk).1).flatten ++ (hashFeed buf chunk).2 =
        ws.flatten ++ buf ++ chunk := by
      rw [List.flatten_append, List.append_assoc, f3, List.append_assoc]
    simp only [List.foldl_cons] at r3 ⊢
    rw [r3, key]
    simp [List.append_assoc]

/-- Claim C9: `Hash::hash` always emits the rope's bytes as the exact
sequence of 256-byte blocks with a trailing partial block, followed by the
`write_u8 0xff` sentinel — independent of the chunk segmentation — so two
ropes with equal content produce identical hasher write sequences. -/
theorem C9_hash_write_protocol :
    (∀ chunks : List (List Nat),
      hashTrace chunks =
        (blocks256 chunks.flatten).map HashEvent.write ++
          [HashEvent.writeU8 0xFF]) ∧
    (∀ c1 c2 : List (List Nat), c1.flatten = c2.flatten →
      hashTrace c1 = hashTrace c2) := by
  have hmain : ∀ chunks : List (List Nat),
      hashTrace chunks =
        (blocks256 chunks.flatten).map HashEvent.write ++
          [HashEvent.writeU8 0xFF] := by
    intro chunks
    obtain ⟨r1, r2, r3⟩ := hashTrace_foldl_spec chunks [] [] (by simp) (by simp)
    rw [hashTrace]
    have hblocks := blocks256_unique
      (chunks.foldl (fun acc chunk =>
        let out := hashFeed acc.2 chunk
        (acc.1 ++ out.1, out.2)) ([], [])).1
      (chunks.foldl (fun acc chunk =>
        let out := hashFeed acc.2 chunk
        (acc.1 ++ out.1, out.2)) ([], [])).2
      r1 r2
    rw [r3] at hblocks
    simp only [List.flatten_nil, List.nil_append] at hblocks
    rw [← hblocks]
  exact ⟨hmain, fun c1 c2 h => by rw [hmain c1, hmain c2, h]⟩

/-- Witness for C9: the segmentations `["ab"]` and `["a", "b"]` of the same
content produce the same hasher trace. -/
theorem C9_hash_write_protocol_witness :
    hashTrace [[97, 98]] = hashTrace [[97], [98]] :=
  C9_hash_write_protocol.2 [[97, 98]] [[97], [98]] rfl

/-! ## Tree bookkeeping lemmas shared by the insert/remove claims -/

theorem TextInfo.append_bytes (a b : TextInfo) :
    (a.append b).bytes = a.bytes + b.bytes := rfl

theorem leaf_accurate (t : Text) : (Node.leaf t).infoAccurate = true := by
  simp [Node.infoAccurate, Text.textInfo, Text.leftInfo]

theorem leaf_recompute (t : Text) :
    (Node.leaf t).recomputeInfo = t.textInfo := rfl

theorem combinedGo_eq_recomputeGo : ∀ (cs : Children), cs.infoAccurate = true →
    ∀ acc : TextInfo, Children.combinedGo acc cs = Children.recomputeGo acc cs
  | .nil, _, _ => rfl
  | .cons i n rest, hacc, acc => by
    simp only [Children.infoAccurate, Bool.and_eq_true, beq_iff_eq] at hacc
    simp only [Children.combinedGo, Children.recomputeGo, hacc.1.1]
    exact combinedGo_eq_recomputeGo rest hacc.2 (acc.append n.recomputeInfo)

theorem combinedInfo_eq_recompute (cs : Children) (hacc : cs.infoAccurate = true) :
    cs.combinedInfo = (Node.internal cs).recomputeInfo := by
  simp only [Children.combinedInfo, Node.recomputeInfo]
  exact combinedGo_eq_recomputeGo cs hacc TextInfo.new

theorem takeN_accurate : ∀ (k : Nat) (cs : Children), cs.infoAccurate = true →
    (Children.takeN k cs).infoAccurate = true
  | 0, _, _ => rfl
  | _ + 1, .nil, _ => rfl
  | k + 1, .cons i n rest, hacc => by
    simp only [Children.infoAccurate, Bool.and_eq_true] at hacc
    simp only [Children.takeN, Children.infoAccurate, Bool.and_eq_true]
    exact ⟨⟨hacc.1.1, hacc.1.2⟩, takeN_accurate k rest hacc.2⟩

theorem dropN_accurate : ∀ (k : Nat) (cs : Children), cs.infoAccurate = true →
    (Children.dropN k cs).infoAccurate = true
  | 0, _, h => h
  | _ + 1, .nil, h => h
  | k + 1, .cons _ _ rest, hacc => by
    simp only [Children.infoAccurate, Bool.and_eq_true] at hacc
    exact dropN_accurate k rest hacc.2


/-! ## Tree claims: accuracy (C4), content (C1) and error no-op (C2) -/

theorem insert_leaf_shape (mb mc idx : Nat) (text : List Nat) (t : Text) :
    Node.insertAtByteIdx mb mc (.leaf t) idx text = (.leaf t, none) ∨
    (∃ t2 : Text, Node.insertAtByteIdx mb mc (.leaf t) idx text =
      (.leaf t2, some (t2.textInfo, none))) ∨
    (∃ l r : Text, Node.insertAtByteIdx mb mc (.leaf t) idx text =
      (.leaf l, some (l.textInfo, some (r.textInfo, .leaf r)))) := by
  simp only [Node.insertAtByteIdx]
  by_cases hb : t.isCharBoundary idx = true
  · rw [if_neg (not_not_intro hb)]
    by_cases hfit : text.length ≤ Text.freeCapacity mb t
    · rw [if_pos hfit]
      right; left
      exact ⟨_, rfl⟩
    · rw [if_neg hfit]
      right; right
      exact ⟨_, _, rfl⟩
  · rw [if_pos hb]
    left
    rfl

mutual
theorem insert_accurate (mb mc : Nat) :
    ∀ (n : Node) (idx : Nat) (text : List Nat), n.infoAccurate = true →
      ∀ lInfo res, (Node.insertAtByteIdx mb mc n idx text).2 = some (lInfo, res) →
        (Node.insertAtByteIdx mb mc n idx text).1.infoAccurate = true ∧
        lInfo = (Node.insertAtByteIdx mb mc n idx text).1.recomputeInfo ∧
        ∀ rInfo rNode, res = some (rInfo, rNode) →
          rNode.infoAccurate = true ∧ rInfo = rNode.recomputeInfo
  | .leaf t, idx, text, hacc, lInfo, res, hsucc => by
    rcases insert_leaf_shape mb mc idx text t with heq | ⟨t2, heq⟩ | ⟨l, r, heq⟩
    · rw [heq] at hsucc
      simp at hsucc
    · rw [heq] at hsucc ⊢
      simp only [Option.some.injEq, Prod.mk.injEq] at hsucc
      obtain ⟨h1, h2⟩ := hsucc
      refine ⟨leaf_accurate _, ?_, ?_⟩
      · rw [← h1, leaf_recompute]
      · intro rInfo rNode hres
        rw [← h2] at hres
        simp at hres
    · rw [heq] at hsucc ⊢
      simp only [Option.some.injEq, Prod.mk.injEq] at hsucc
      obtain ⟨h1, h2⟩ := hsucc
      refine ⟨leaf_accurate _, ?_, ?_⟩
      · rw [← h1, leaf_recompute]
      · intro rInfo rNode hres
        rw [← h2] at hres
        simp only [Option.some.injEq, Prod.mk.injEq] at hres
        obtain ⟨h3, h4⟩ := hres
        rw [← h3, ← h4]
        exact ⟨leaf_accurate _, (leaf_recompute _).symm⟩
  | .internal cs, idx, text, hacc, lInfo, res, hsucc => by
    simp only [Node.insertAtByteIdx] at hsucc ⊢
    rcases hw : (Children.insertWalk mb mc cs idx text).2 with _ | grew
    · rw [hw] at hsucc
      simp at hsucc
    · rw [hw] at hsucc
      dsimp only at hsucc ⊢
      have hwacc : (Children.insertWalk mb mc cs idx text).1.infoAccurate = true :=
        insertWalk_accurate mb mc cs idx text hacc grew hw
      by_cases hg : grew = true ∧ mc < (Children.insertWalk mb mc cs idx text).1.length
      · rw [if_pos hg] at hsucc ⊢
        simp only [Option.some.injEq, Prod.mk.injEq] at hsucc
        obtain ⟨h1, h2⟩ := hsucc
        have hlacc := takeN_accurate
          (((Children.insertWalk mb mc cs idx text).1.length + 1) / 2) _ hwacc
        have hracc := dropN_accurate
          (((Children.insertWalk mb mc cs idx text).1.length + 1) / 2) _ hwacc
        refine ⟨hlacc, ?_, ?_⟩
        · rw [← h1]
          exact combinedInfo_eq_recompute _ hlacc
        · intro rInfo rNode hres
          rw [← h2] at hres
          simp only [Option.some.injEq, Prod.mk.injEq] at hres
          obtain ⟨h3, h4⟩ := hres
          rw [← h3, ← h4]
          exact ⟨hracc, combinedInfo_eq_recompute _ hracc⟩
      · rw [if_neg hg] at hsucc ⊢
        simp only [Option.some.injEq, Prod.mk.injEq] at hsucc
        obtain ⟨h1, h2⟩ := hsucc
        refine ⟨hwacc, ?_, ?_⟩
        · rw [← h1]
          exact combinedInfo_eq_recompute _ hwacc
        · intro rInfo rNode hres
          rw [← h2] at hres
          simp at hres

theorem insertWalk_accurate (mb mc : Nat) :
    ∀ (cs : Children) (idx : Nat) (text : List Nat), cs.infoAccurate = true →
      ∀ b, (Children.insertWalk mb mc cs idx text).2 = some b →
        (Children.insertWalk mb mc cs idx text).1.infoAccurate = true
  | .nil, idx, text, hacc, b, hsucc => by
    simp [Children.insertWalk] at hsucc
  | .cons info n rest, idx, text, hacc, b, hsucc => by
    simp only [Children.infoAccurate, Bool.and_eq_true, beq_iff_eq] at hacc
    by_cases hskip : idx < info.bytes ∨ rest.isNil = true
    · rcases hres : Node.insertAtByteIdx mb mc n idx text with ⟨n2, o⟩
      have hkey := insert_accurate mb mc n idx text hacc.1.2
      rw [hres] at hkey
      rcases o with _ | ⟨li, osp⟩
      · have heq : Children.insertWalk mb mc (.cons info n rest) idx text =
            (.cons info n2 rest, none) := by
          simp only [Children.insertWalk]
          rw [if_pos hskip, hres]
        rw [heq] at hsucc
        simp at hsucc
      · have hk := hkey li osp rfl
        rcases osp with _ | ⟨ri, rn⟩
        · have heq : Children.insertWalk mb mc (.cons info n rest) idx text =
              (.cons li n2 rest, some false) := by
            simp only [Children.insertWalk]
            rw [if_pos hskip, hres]
          rw [heq]
          simp only [Children.infoAccurate, Bool.and_eq_true, beq_iff_eq]
          exact ⟨⟨hk.2.1, hk.1⟩, hacc.2⟩
        · obtain ⟨hrn, hri⟩ := hk.2.2 ri rn rfl
          have heq : Children.insertWalk mb mc (.cons info n rest) idx text =
              (.cons li n2 (.cons ri rn rest), some true) := by
            simp only [Children.insertWalk]
            rw [if_pos hskip, hres]
          rw [heq]
          simp only [Children.infoAccurate, Bool.and_eq_true, beq_iff_eq]
          exact ⟨⟨hk.2.1, hk.1⟩, ⟨hri, hrn⟩, hacc.2⟩
    · have heq : Children.insertWalk mb mc (.cons info n rest) idx text =
          (.cons info n (Children.insertWalk mb mc rest (idx - info.bytes) text).1,
            (Children.insertWalk mb mc rest (idx - info.bytes) text).2) := by
        simp only [Children.insertWalk]
        rw [if_neg hskip]
      rw [heq] at hsucc ⊢
      simp only [Children.infoAccurate, Bool.and_eq_true, beq_iff_eq]
      exact ⟨⟨hacc.1.1, hacc.1.2⟩,
        insertWalk_accurate mb mc rest (idx - info.bytes) text hacc.2 b hsucc⟩
end

theorem remove_leaf_shape (lo hi : Nat) (t : Text) :
    Node.removeByteRange (.leaf t) lo hi = (.leaf t, none) ∨
    ∃ t2 : Text, Node.removeByteRange (.leaf t) lo hi =
      (.leaf t2, some t2.textInfo) := by
  simp only [Node.removeByteRange]
  by_cases hb : ¬t.isCharBoundary lo = true ∨ ¬t.isCharBoundary hi = true
  · rw [if_pos hb]
    left
    rfl
  · rw [if_neg hb]
    right
    exact ⟨_, rfl⟩

mutual
theorem remove_accurate :
    ∀ (n : Node) (lo hi : Nat), n.infoAccurate = true →
      ∀ info, (Node.removeByteRange n lo hi).2 = some info →
        (Node.removeByteRange n lo hi).1.infoAccurate = true ∧
        info = (Node.removeByteRange n lo hi).1.recomputeInfo
  | .leaf t, lo, hi, hacc, info, hsucc => by
    rcases remove_leaf_shape lo hi t with heq | ⟨t2, heq⟩
    · rw [heq] at hsucc
      simp at hsucc
    · rw [heq] at hsucc ⊢
      simp only [Option.some.injEq] at hsucc
      exact ⟨leaf_accurate _, by rw [← hsucc, leaf_recompute]⟩
  | .internal cs, lo, hi, hacc, info, hsucc => by
    simp only [Node.removeByteRange] at hsucc ⊢
    rcases hw : (Children.removeWalk cs lo hi).2 with _ | u
    · rw [hw] at hsucc
      simp at hsucc
    · rw [hw] at hsucc
      dsimp only at hsucc ⊢
      have hwacc := removeWalk_accurate cs lo hi hacc u hw
      simp only [Option.some.injEq] at hsucc
      refine ⟨hwacc, ?_⟩
      rw [← hsucc]
      exact combinedInfo_eq_recompute _ hwacc

theorem removeWalk_accurate :
    ∀ (cs : Children) (lo hi : Nat), cs.infoAccurate = true →
      ∀ u, (Children.removeWalk cs lo hi).2 = some u →
        (Children.removeWalk cs lo hi).1.infoAccurate = true
  | .nil, _, _, _, _, _ => rfl
  | .cons info n rest, lo, hi, hacc, u, hsucc => by
    simp only [Children.infoAccurate, Bool.and_eq_true, beq_iff_eq] at hacc
    by_cases h1 : lo < info.bytes ∨ rest.isNil = true
    · by_cases h2 : hi < info.bytes ∨ rest.isNil = true
      · by_cases h3 : lo = 0 ∧ hi = info.bytes
        · have heq : Children.removeWalk (.cons info n rest) lo hi =
              (rest, some ()) := by
            simp only [Children.removeWalk]
            rw [if_pos h1, if_pos h2, if_pos h3]
          rw [heq]
          exact hacc.2
        · rcases hres : Node.removeByteRange n lo hi with ⟨n2, o⟩
          have hkey := remove_accurate n lo hi hacc.1.2
          rw [hres] at hkey
          rcases o with _ | i2
          · have heq : Children.removeWalk (.cons info n rest) lo hi =
                (.cons info n2 rest, none) := by
              simp only [Children.removeWalk]
              rw [if_pos h1, if_pos h2, if_neg h3, hres]
            rw [heq] at hsucc
            simp at hsucc
          · have hk := hkey i2 rfl
            have heq : Children.removeWalk (.cons info n rest) lo hi =
                (.cons i2 n2 rest, some ()) := by
              simp only [Children.removeWalk]
              rw [if_pos h1, if_pos h2, if_neg h3, hres]
            rw [heq]
            simp only [Children.infoAccurate, Bool.and_eq_true, beq_iff_eq]
            exact ⟨⟨hk.2, hk.1⟩, hacc.2⟩
      · by_cases h4 : lo = 0
        · rcases ht : (Children.remTail rest (hi - info.bytes)).2 with _ | u2
          · have heq : Children.removeWalk (.cons info n rest) lo hi =
                (.cons info n (Children.remTail rest (hi - info.bytes)).1,
                  none) := by
              simp only [Children.removeWalk]
              rw [if_pos h1, if_neg h2, if_pos h4, ht]
            rw [heq] at hsucc
            simp at hsucc
          · have heq : Children.removeWalk (.cons info n rest) lo hi =
                ((Children.remTail rest (hi - info.bytes)).1, some ()) := by
              simp only [Children.removeWalk]
              rw [if_pos h1, if_neg h2, if_pos h4, ht]
            rw [heq]
            exact remTail_accurate rest (hi - info.bytes) hacc.2 u2 ht
        · rcases hres : Node.removeByteRange n lo info.bytes with ⟨n2, o⟩
          have hkey := remove_accurate n lo info.bytes hacc.1.2
          rw [hres] at hkey
          rcases o with _ | i2
          · have heq : Children.removeWalk (.cons info n rest) lo hi =
                (.cons info n2 rest, none) := by
              simp only [Children.removeWalk]
              rw [if_pos h1, if_neg h2, if_neg h4, hres]
            rw [heq] at hsucc
            simp at hsucc
          · have hk := hkey i2 rfl
            rcases ht : (Children.remTail rest (hi - info.bytes)).2 with _ | u2
            · have heq : Children.removeWalk (.cons info n rest) lo hi =
                  (.cons i2 n2 (Children.remTail rest (hi - info.bytes)).1,
                    none) := by
                simp only [Children.removeWalk]
                rw [if_pos h1, if_neg h2, if_neg h4, hres, ht]
              rw [heq] at hsucc
              simp at hsucc
            · have heq : Children.removeWalk (.cons info n rest) lo hi =
                  (.cons i2 n2 (Children.remTail rest (hi - info.bytes)).1,
                    some ()) := by
                simp only [Children.removeWalk]
                rw [if_pos h1, if_neg h2, if_neg h4, hres, ht]
              rw [heq]
              simp only [Children.infoAccurate, Bool.and_eq_true, beq_iff_eq]
              exact ⟨⟨hk.2, hk.1⟩,
                remTail_accurate rest (hi - info.bytes) hacc.2 u2 ht⟩
    · have heq : Children.removeWalk (.cons info n rest) lo hi =
          (.cons info n
            (Children.removeWalk rest (lo - info.bytes) (hi - info.bytes)).1,
            (Children.removeWalk rest (lo - info.bytes) (hi - info.bytes)).2) := by
        simp only [Children.removeWalk]
        rw [if_neg h1]
      rw [heq] at hsucc ⊢
      simp only [Children.infoAccurate, Bool.and_eq_true, beq_iff_eq]
      exact ⟨⟨hacc.1.1, hacc.1.2⟩,
        removeWalk_accurate rest (lo - info.bytes) (hi - info.bytes) hacc.2 u hsucc⟩

theorem remTail_accurate :
    ∀ (cs : Children) (hi : Nat), cs.infoAccurate = true →
      ∀ u, (Children.remTail cs hi).2 = some u →
        (Children.remTail cs hi).1.infoAccurate = true
  | .nil, _, _, _, _ => rfl
  | .cons info n rest, hi, hacc, u, hsucc => by
    simp only [Children.infoAccurate, Bool.and_eq_true, beq_iff_eq] at hacc
    by_cases h1 : hi < info.bytes ∨ rest.isNil = true
    · by_cases h2 : hi = info.bytes
      · have heq : Children.remTail (.cons info n rest) hi = (rest, some ()) := by
          simp only [Children.remTail]
          rw [if_pos h1, if_pos h2]
        rw [heq]
        exact hacc.2
      · rcases hres : Node.removeByteRange n 0 hi with ⟨n2, o⟩
        have hkey := remove_accurate n 0 hi hacc.1.2
        rw [hres] at hkey
        rcases o with _ | i2
        · have heq : Children.remTail (.cons info n rest) hi =
              (.cons info n2 rest, none) := by
            simp only [Children.remTail]
            rw [if_pos h1, if_neg h2, hres]
          rw [heq] at hsucc
          simp at hsucc
        · have hk := hkey i2 rfl
          have heq : Children.remTail (.cons info n rest) hi =
              (.cons i2 n2 rest, some ()) := by
            simp only [Children.remTail]
            rw [if_pos h1, if_neg h2, hres]
          rw [heq]
          simp only [Children.infoAccurate, Bool.and_eq_true, beq_iff_eq]
          exact ⟨⟨hk.2, hk.1⟩, hacc.2⟩
    · rcases ht : (Children.remTail rest (hi - info.bytes)).2 with _ | u2
      · have heq : Children.remTail (.cons info n rest) hi =
            (.cons info n (Children.remTail rest (hi - info.bytes)).1, none) := by
          simp only [Children.remTail]
          rw [if_neg h1, ht]
        rw [heq] at hsucc
        simp at hsucc
      · have heq : Children.remTail (.cons info n rest) hi =
            ((Children.remTail rest (hi - info.bytes)).1, some ()) := by
          simp only [Children.remTail]
          rw [if_neg h1, ht]
        rw [heq]
        exact remTail_accurate rest (hi - info.bytes) hacc.2 u2 ht
end

theorem fromStr_bytes (l : List Nat) : (TextInfo.fromStr l).bytes = l.length := rfl

mutual
theorem recompute_bytes : ∀ (n : Node), n.recomputeInfo.bytes = n.concatBytes.length
  | .leaf t => by
    simp only [Node.recomputeInfo, Node.concatBytes, TextInfo.append_bytes,
      fromStr_bytes, List.length_take, List.length_drop]
    omega
  | .internal cs => by
    simp only [Node.recomputeInfo, Node.concatBytes]
    rw [recomputeGo_bytes TextInfo.new cs]
    simp [TextInfo.new]
theorem recomputeGo_bytes : ∀ (acc : TextInfo) (cs : Children),
    (Children.recomputeGo acc cs).bytes = acc.bytes + cs.concatBytes.length
  | acc, .nil => by
    simp [Children.recomputeGo, Children.concatBytes]
  | acc, .cons i n rest => by
    simp only [Children.recomputeGo, Children.concatBytes]
    rw [recomputeGo_bytes (acc.append n.recomputeInfo) rest]
    rw [TextInfo.append_bytes, recompute_bytes n]
    simp only [List.length_append]
    omega
end

theorem takeN_dropN_concat : ∀ (k : Nat) (cs : Children),
    (Children.takeN k cs).concatBytes ++ (Children.dropN k cs).concatBytes =
      cs.concatBytes
  | 0, cs => by
    simp [Children.takeN, Children.dropN, Children.concatBytes]
  | _ + 1, .nil => by
    simp [Children.takeN, Children.dropN, Children.concatBytes]
  | k + 1, .cons i n rest => by
    simp only [Children.takeN, Children.dropN, Children.concatBytes,
      List.append_assoc]
    rw [takeN_dropN_concat k rest]

theorem isNil_eq_nil : ∀ (cs : Children), cs.isNil = true → cs = .nil
  | .nil, _ => rfl
  | .cons _ _ _, h => by simp [Children.isNil] at h

theorem distribute_concat (l r : Text) :
    (Text.distribute l r).1.bytes ++ (Text.distribute l r).2.bytes =
      l.bytes ++ r.bytes := by
  simp [Text.distribute, List.take_append_drop]

theorem crlfFree_left (a b : List Nat) (i : Nat) (h : CrlfFree (a ++ b) i)
    (hi : i < a.length) : CrlfFree a i := by
  intro hbad
  obtain ⟨h1, h2, h3, h4⟩ := hbad
  apply h
  refine ⟨h1, by simp only [List.length_append]; omega, ?_, ?_⟩
  · rw [List.getD_append a b 0 (i - 1) (by omega)]
    exact h3
  · rw [List.getD_append a b 0 i (by omega)]
    exact h4

theorem crlfFree_right (a b : List Nat) (i : Nat) (h : CrlfFree (a ++ b) i)
    (hi : a.length ≤ i) : CrlfFree b (i - a.length) := by
  intro hbad
  obtain ⟨h1, h2, h3, h4⟩ := hbad
  apply h
  refine ⟨by omega, by simp only [List.length_append]; omega, ?_, ?_⟩
  · rw [show i - 1 = a.length + (i - a.length - 1) from by omega,
      List.getD_append_right a b 0 _ (by omega)]
    rw [show a.length + (i - a.length - 1) - a.length = i - a.length - 1 from by omega]
    exact h3
  · rw [show i = a.length + (i - a.length) from by omega,
      List.getD_append_right a b 0 _ (by omega)]
    rw [show a.length + (i - a.length) - a.length = i - a.length from by omega]
    exact h4

theorem insertStr_bytes (t : Text) (i : Nat) (s : List Nat) :
    (t.insertStr i s).bytes = t.bytes.take i ++ s ++ t.bytes.drop i := rfl

theorem appendStr_bytes (t : Text) (s : List Nat) :
    (t.appendStr s).bytes = t.bytes ++ s := rfl

theorem splitAt_noBackoff (t : Text) (i : Nat) (hcrlf : CrlfFree t.bytes i) :
    (t.splitAt i).1.bytes = t.bytes.take i ∧
    (t.splitAt i).2.bytes = t.bytes.drop i := by
  simp only [Text.splitAt]
  rw [if_neg hcrlf]
  exact ⟨rfl, rfl⟩

theorem insert_leaf_content (mb mc idx : Nat) (text : List Nat) (t : Text)
    (hcrlf : CrlfFree t.bytes idx) :
    ∀ lInfo res, (Node.insertAtByteIdx mb mc (.leaf t) idx text).2 =
        some (lInfo, res) →
      (Node.insertAtByteIdx mb mc (.leaf t) idx text).1.concatBytes ++
          residualBytes res =
        t.bytes.take idx ++ text ++ t.bytes.drop idx := by
  intro lInfo res hsucc
  by_cases hb : t.isCharBoundary idx = true
  · by_cases hfit : text.length ≤ Text.freeCapacity mb t
    · have heq : Node.insertAtByteIdx mb mc (.leaf t) idx text =
          (.leaf (t.insertStr idx text),
            some ((t.insertStr idx text).textInfo, none)) := by
        simp only [Node.insertAtByteIdx]
        rw [if_neg (not_not_intro hb), if_pos hfit]
      rw [heq] at hsucc ⊢
      simp only [Option.some.injEq, Prod.mk.injEq] at hsucc
      rw [← hsucc.2]
      simp only [residualBytes, Node.concatBytes, insertStr_bytes, List.append_nil]
    · have heq : Node.insertAtByteIdx mb mc (.leaf t) idx text =
          ((fun d => ((.leaf d.1 : Node),
              some (d.1.textInfo, some (d.2.textInfo, (.leaf d.2 : Node)))))
            (Text.distribute
              ((t.splitAt idx).1.appendStr
                (text.take (findSplitL (Text.freeCapacity mb (t.splitAt idx).1) text)))
              ((t.splitAt idx).2.insertStr 0
                (text.drop (findSplitL (Text.freeCapacity mb (t.splitAt idx).1) text))))) := by
        simp only [Node.insertAtByteIdx]
        rw [if_neg (not_not_intro hb), if_neg hfit]
      rw [heq] at hsucc ⊢
      dsimp only at hsucc ⊢
      simp only [Option.some.injEq, Prod.mk.injEq] at hsucc
      rw [← hsucc.2]
      simp only [residualBytes, Node.concatBytes]
      rw [distribute_concat, appendStr_bytes, insertStr_bytes,
        (splitAt_noBackoff t idx hcrlf).1, (splitAt_noBackoff t idx hcrlf).2]
      simp only [List.take_zero, List.drop_zero, List.nil_append, List.append_assoc]
      rw [← List.append_assoc (text.take _), List.take_append_drop]
  · have heq : Node.insertAtByteIdx mb mc (.leaf t) idx text = (.leaf t, none) := by
      simp only [Node.insertAtByteIdx]
      rw [if_pos hb]
    rw [heq] at hsucc
    simp at hsucc

theorem content_glue (a b text : List Nat) (idx : Nat) (X : List Nat)
    (hX : X = a.take idx ++ text ++ a.drop idx)
    (hcase : idx ≤ a.length ∨ b = []) :
    X ++ b = (a ++ b).take idx ++ text ++ (a ++ b).drop idx := by
  rcases hcase with h | h
  · rw [List.take_append_of_le_length h, List.drop_append_of_le_length h, hX]
    simp [List.append_assoc]
  · rw [h]
    simp only [List.append_nil]
    exact hX

mutual
theorem insert_content (mb mc : Nat) :
    ∀ (n : Node) (idx : Nat) (text : List Nat),
      n.infoAccurate = true → CrlfFree n.concatBytes idx →
      ∀ lInfo res, (Node.insertAtByteIdx mb mc n idx text).2 = some (lInfo, res) →
        (Node.insertAtByteIdx mb mc n idx text).1.concatBytes ++
            residualBytes res =
          n.concatBytes.take idx ++ text ++ n.concatBytes.drop idx
  | .leaf t, idx, text, _, hcrlf, lInfo, res, hsucc =>
    insert_leaf_content mb mc idx text t hcrlf lInfo res hsucc
  | .internal cs, idx, text, hacc, hcrlf, lInfo, res, hsucc => by
    simp only [Node.insertAtByteIdx] at hsucc ⊢
    rcases hw : (Children.insertWalk mb mc cs idx text).2 with _ | grew
    · rw [hw] at hsucc
      simp at hsucc
    · rw [hw] at hsucc
      dsimp only at hsucc ⊢
      have hwc := insertWalk_content mb mc cs idx text hacc hcrlf grew hw
      by_cases hg : grew = true ∧ mc < (Children.insertWalk mb mc cs idx text).1.length
      · rw [if_pos hg] at hsucc ⊢
        simp only [Option.some.injEq, Prod.mk.injEq] at hsucc
        rw [← hsucc.2]
        simp only [residualBytes, Node.concatBytes]
        rw [takeN_dropN_concat]
        exact hwc
      · rw [if_neg hg] at hsucc ⊢
        simp only [Option.some.injEq, Prod.mk.injEq] at hsucc
        rw [← hsucc.2]
        simp only [residualBytes, Node.concatBytes, List.append_nil]
        exact hwc

theorem insertWalk_content (mb mc : Nat) :
    ∀ (cs : Children) (idx : Nat) (text : List Nat),
      cs.infoAccurate = true → CrlfFree cs.concatBytes idx →
      ∀ b, (Children.insertWalk mb mc cs idx text).2 = some b →
        (Children.insertWalk mb mc cs idx text).1.concatBytes =
          cs.concatBytes.take idx ++ text ++ cs.concatBytes.drop idx
  | .nil, idx, text, _, _, b, hsucc => by
    simp [Children.insertWalk] at hsucc
  | .cons info n rest, idx, text, hacc, hcrlf, b, hsucc => by
    simp only [Children.infoAccurate, Bool.and_eq_true, beq_iff_eq] at hacc
    simp only [Children.concatBytes] at hcrlf
    have hbytes : info.bytes = n.concatBytes.length := by
      rw [hacc.1.1, recompute_bytes]
    by_cases hskip : idx < info.bytes ∨ rest.isNil = true
    · have hcase : idx ≤ n.concatBytes.length ∨ rest.concatBytes = [] := by
        rcases hskip with hlt | hnil
        · left; omega
        · right; rw [isNil_eq_nil rest hnil]; rfl
      have hccrlf : CrlfFree n.concatBytes idx := by
        rcases hcase with hle | hnilc
        · rcases Nat.lt_or_ge idx n.concatBytes.length with hlt | hge
          · exact crlfFree_left _ _ idx hcrlf hlt
          · intro hbad
            omega
        · rw [hnilc, List.append_nil] at hcrlf
          exact hcrlf
      rcases hres : Node.insertAtByteIdx mb mc n idx text with ⟨n2, o⟩
      have hkey := insert_content mb mc n idx text hacc.1.2 hccrlf
      rw [hres] at hkey
      rcases o with _ | ⟨li, osp⟩
      · have heq : Children.insertWalk mb mc (.cons info n rest) idx text =
            (.cons info n2 rest, none) := by
          simp only [Children.insertWalk]
          rw [if_pos hskip, hres]
        rw [heq] at hsucc
        simp at hsucc
      · have hk := hkey li osp rfl
        rcases osp with _ | ⟨ri, rn⟩
        · have heq : Children.insertWalk mb mc (.cons info n rest) idx text =
              (.cons li n2 rest, some false) := by
            simp only [Children.insertWalk]
            rw [if_pos hskip, hres]
          rw [heq]
          simp only [Children.concatBytes]
          simp only [residualBytes, List.append_nil] at hk
          exact content_glue _ _ text idx _ hk hcase
        · have heq : Children.insertWalk mb mc (.cons info n rest) idx text =
              (.cons li n2 (.cons ri rn rest), some true) := by
            simp only [Children.insertWalk]
            rw [if_pos hskip, hres]
          rw [heq]
          simp only [Children.concatBytes]
          simp only [residualBytes] at hk
          rw [← List.append_assoc]
          exact content_glue _ _ text idx _ hk hcase
    · have hge : info.bytes ≤ idx := by
        rcases Nat.lt_or_ge idx info.bytes with hlt | hge2
        · exact absurd (Or.inl hlt) hskip
        · exact hge2
      have heq : Children.insertWalk mb mc (.cons info n rest) idx text =
          (.cons info n (Children.insertWalk mb mc rest (idx - info.bytes) text).1,
            (Children.insertWalk mb mc rest (idx - info.bytes) text).2) := by
        simp only [Children.insertWalk]
        rw [if_neg hskip]
      rw [heq] at hsucc ⊢
      have hrcrlf : CrlfFree rest.concatBytes (idx - info.bytes) := by
        have h0 := crlfFree_right n.concatBytes rest.concatBytes idx hcrlf (by omega)
        rw [← hbytes] at h0
        exact h0
      have hwc := insertWalk_content mb mc rest (idx - info.bytes) text
        hacc.2 hrcrlf b hsucc
      simp only [Children.concatBytes]
      rw [hwc]
      set k := idx - info.bytes with hk
      have hidx : idx = n.concatBytes.length + k := by omega
      rw [hidx, List.take_append, List.drop_append]
      simp [List.append_assoc]
end

mutual
theorem insert_error_noop (mb mc : Nat) :
    ∀ (n : Node) (idx : Nat) (text : List Nat),
      (Node.insertAtByteIdx mb mc n idx text).2 = none →
      (Node.insertAtByteIdx mb mc n idx text).1 = n
  | .leaf t, idx, text, herr => by
    rcases insert_leaf_shape mb mc idx text t with heq | ⟨t2, heq⟩ | ⟨l, r, heq⟩
    · rw [heq]
    · rw [heq] at herr
      simp at herr
    · rw [heq] at herr
      simp at herr
  | .internal cs, idx, text, herr => by
    simp only [Node.insertAtByteIdx] at herr ⊢
    rcases hw : (Children.insertWalk mb mc cs idx text).2 with _ | grew
    · dsimp only
      rw [insertWalk_error_noop mb mc cs idx text hw]
    · rw [hw] at herr
      dsimp only at herr
      by_cases hg : grew = true ∧ mc < (Children.insertWalk mb mc cs idx text).1.length
      · rw [if_pos hg] at herr
        simp at herr
      · rw [if_neg hg] at herr
        simp at herr

theorem insertWalk_error_noop (mb mc : Nat) :
    ∀ (cs : Children) (idx : Nat) (text : List Nat),
      (Children.insertWalk mb mc cs idx text).2 = none →
      (Children.insertWalk mb mc cs idx text).1 = cs
  | .nil, _, _, _ => rfl
  | .cons info n rest, idx, text, herr => by
    by_cases hskip : idx < info.bytes ∨ rest.isNil = true
    · rcases hres : Node.insertAtByteIdx mb mc n idx text with ⟨n2, o⟩
      rcases o with _ | ⟨li, osp⟩
      · have heq : Children.insertWalk mb mc (.cons info n rest) idx text =
            (.cons info n2 rest, none) := by
          simp only [Children.insertWalk]
          rw [if_pos hskip, hres]
        have hnoop := insert_error_noop mb mc n idx text (by rw [hres])
        rw [hres] at hnoop
        rw [heq, show n2 = n from hnoop]
      · rcases osp with _ | ⟨ri, rn⟩
        · have heq : Children.insertWalk mb mc (.cons info n rest) idx text =
              (.cons li n2 rest, some false) := by
            simp only [Children.insertWalk]
            rw [if_pos hskip, hres]
          rw [heq] at herr
          simp at herr
        · have heq : Children.insertWalk mb mc (.cons info n rest) idx text =
              (.cons li n2 (.cons ri rn rest), some true) := by
            simp only [Children.insertWalk]
            rw [if_pos hskip, hres]
          rw [heq] at herr
          simp at herr
    · have heq : Children.insertWalk mb mc (.cons info n rest) idx text =
          (.cons info n (Children.insertWalk mb mc rest (idx - info.bytes) text).1,
            (Children.insertWalk mb mc rest (idx - info.bytes) text).2) := by
        simp only [Children.insertWalk]
        rw [if_neg hskip]
      rw [heq] at herr ⊢
      rw [insertWalk_error_noop mb mc rest (idx - info.bytes) text herr]
end

/-- Claim C4: after every successful `insert_at_byte_idx` or
`remove_byte_range` on a tree whose cached infos are accurate, every cached
`TextInfo` of the resulting tree equals the info recomputed from scratch
from the text of its leaves, and the infos handed back to the caller
(including a split residual's) equal the recomputed infos of the returned
nodes. -/
theorem C4_info_accuracy (mb mc idx lo hi : Nat) (text : List Nat) (n : Node)
    (hacc : n.infoAccurate = true) :
    (∀ lInfo res, (Node.insertAtByteIdx mb mc n idx text).2 = some (lInfo, res) →
      (Node.insertAtByteIdx mb mc n idx text).1.infoAccurate = true ∧
      lInfo = (Node.insertAtByteIdx mb mc n idx text).1.recomputeInfo ∧
      ∀ rInfo rNode, res = some (rInfo, rNode) →
        rNode.infoAccurate = true ∧ rInfo = rNode.recomputeInfo) ∧
    (∀ info, (Node.removeByteRange n lo hi).2 = some info →
      (Node.removeByteRange n lo hi).1.infoAccurate = true ∧
      info = (Node.removeByteRange n lo hi).1.recomputeInfo) :=
  ⟨insert_accurate mb mc n idx text hacc, remove_accurate n lo hi hacc⟩

/-- Witness for C4 on the concrete two-leaf tree: a successful insert and a
successful remove both leave every cached info accurate. -/
theorem C4_info_accuracy_witness :
    (Node.insertAtByteIdx 9 5 exTree2 1 [101]).1.infoAccurate = true ∧
    (Node.removeByteRange exTree2 1 4).1.infoAccurate = true := by
  have h := C4_info_accuracy 9 5 1 1 4 [101] exTree2 (by decide)
  exact ⟨(h.1 _ _ rfl).1, (h.2 _ rfl).1⟩

/-- Claim C1 (amended): on a tree with accurate cached infos, a successful
`insert_at_byte_idx` of `t` at byte `i` produces exactly
`s[..i] ++ t ++ s[i..]` (counting the split residual handed back to the
caller), provided `i` does not fall between the CR and the LF of a CRLF
pair.  At such a position the leaf-split backoff moves the effective
insertion point one byte left, so the string-edit equation of the original
claim fails — see the counterexample. -/
theorem C1_insert_content (mb mc idx : Nat) (text : List Nat) (n : Node)
    (hacc : n.infoAccurate = true)
    (hcrlf : CrlfFree n.concatBytes idx)
    (lInfo : TextInfo) (res : Option (TextInfo × Node))
    (hsucc : (Node.insertAtByteIdx mb mc n idx text).2 = some (lInfo, res)) :
    (Node.insertAtByteIdx mb mc n idx text).1.concatBytes ++ residualBytes res =
      n.concatBytes.take idx ++ text ++ n.concatBytes.drop idx :=
  insert_content mb mc n idx text hacc hcrlf lInfo res hsucc

/-- Witness for C1 (amended): inserting a byte in the middle of a two-byte
leaf yields the spliced string. -/
theorem C1_insert_content_witness :
    (Node.insertAtByteIdx 9 5 (.leaf ⟨[97, 98], 0⟩) 1 [99]).1.concatBytes ++
        residualBytes (none : Option (TextInfo × Node)) =
      [97, 98].take 1 ++ [99] ++ [97, 98].drop 1 :=
  C1_insert_content 9 5 1 [99] (.leaf ⟨[97, 98], 0⟩) (by decide) (by decide)
    _ none rfl

/-- Counterexample to the original C1: inserting six bytes at byte 2 of the
leaf `"a\r\nb"` — a char boundary on a tree with accurate infos — overflows
the leaf, the split backs off to before the CR, and the resulting content is
not `s[..2] ++ t ++ s[2..]`. -/
theorem C1_crlf_backoff_counterexample :
    Node.infoAccurate (.leaf ⟨[97, 13, 10, 98], 2⟩) = true ∧
    isCharBoundary [97, 13, 10, 98] 2 = true ∧
    (Node.insertAtByteIdx 9 5 (.leaf ⟨[97, 13, 10, 98], 2⟩) 2
        [88, 88, 88, 88, 88, 88]).2.isSome = true ∧
    (Node.insertAtByteIdx 9 5 (.leaf ⟨[97, 13, 10, 98], 2⟩) 2
        [88, 88, 88, 88, 88, 88]).1.concatBytes ++
      (match (Node.insertAtByteIdx 9 5 (.leaf ⟨[97, 13, 10, 98], 2⟩) 2
          [88, 88, 88, 88, 88, 88]).2 with
        | some (_, r) => residualBytes r
        | none => []) ≠
      [97, 13, 10, 98].take 2 ++ [88, 88, 88, 88, 88, 88] ++
        [97, 13, 10, 98].drop 2 := by
  decide

/-- Claim C2 (amended): an `insert_at_byte_idx` that fails the char-boundary
check returns the error with the tree completely unchanged.  For
`remove_byte_range` the error is returned to the caller but the no-op
guarantee does not hold — the start child's trim can persist, see the
counterexample. -/
theorem C2_insert_error_noop (mb mc idx : Nat) (text : List Nat) (n : Node)
    (herr : (Node.insertAtByteIdx mb mc n idx text).2 = none) :
    (Node.insertAtByteIdx mb mc n idx text).1 = n :=
  insert_error_noop mb mc n idx text herr

/-- Witness for C2 (amended): inserting inside a two-byte scalar errors and
leaves the leaf unchanged. -/
theorem C2_insert_error_noop_witness :
    (Node.insertAtByteIdx 9 5 (.leaf ⟨[97, 195, 169], 0⟩) 2 [88]).1 =
      .leaf ⟨[97, 195, 169], 0⟩ :=
  C2_insert_error_noop 9 5 2 [88] (.leaf ⟨[97, 195, 169], 0⟩) rfl

/-- Counterexample to the original C2: on the accurate two-leaf tree,
removing `[1, 5)` — whose end falls inside the second leaf's two-byte
scalar — returns the error, yet the first leaf's trim has already been
applied, so the tree content visibly changed. -/
theorem C2_remove_partial_mutation_counterexample :
    Node.infoAccurate exTree2 = true ∧
    (Node.removeByteRange exTree2 1 5).2 = none ∧
    (Node.removeByteRange exTree2 1 5).1.concatBytes ≠ exTree2.concatBytes := by
  decide


end Rope
